import Mathlib

/-!
Verification of the timetable rendering core of gulaschkanone.py
(a conference-schedule-to-text-grid renderer).

Text is modelled as `List Char`.  The ANSI escape sequences the program
embeds in its output (`\033[1m`, `\033[0m`, `\033[33m`, `\033[38;5;246m`)
are modelled literally; the visible width of a line is the length after
stripping those sequences, mirroring the program's own stripping regex
`\033\[[0-9;]+m` in gulasch_response.

Timestamps are modelled as integer minutes from an hour-aligned epoch, so
a datetime has minute-of-hour m with m % 5 = 0 iff the integer is
divisible by 5; durations are natural numbers of minutes, exactly as
produced by parse_duration.

Python operations that raise exceptions (textwrap.wrap with width <= 0,
str.format with a negative width, next() on an exhausted generator,
indexing an empty list) are modelled by Option, with none for the raise.
-/

set_option linter.unusedVariables false
set_option linter.unreachableTactic false
set_option linter.unusedTactic false
set_option linter.unnecessarySeqFocus false

namespace Gulasch

/-- The ASCII escape character that introduces the program's inline
styling sequences. -/
def esc : Char := Char.ofNat 27

/-- The bold-on sequence `\033[1m` used for event titles. -/
def boldOn : List Char := [esc, '[', '1', 'm']

/-- The reset sequence `\033[0m`. -/
def sgrReset : List Char := [esc, '[', '0', 'm']

/-- The yellow sequence `\033[33m` used for the speaker list. -/
def yellowOn : List Char := [esc, '[', '3', '3', 'm']

/-- The gray sequence `\033[38;5;246m` used for the language code. -/
def grayOn : List Char := [esc, '[', '3', '8', ';', '5', ';', '2', '4', '6', 'm']

/-- Characters allowed in the body of an ANSI SGR sequence, as matched by
the stripping regex character class `[0-9;]`. -/
def isAnsiBody (c : Char) : Bool := c.isDigit || c = ';'

/-- One pass of ANSI-sequence stripping, mirroring
`re.sub('\\033\\[[0-9;]+m', '', text)` from gulasch_response: a maximal
match `ESC [ body+ m` is deleted, any other character is kept.  The fuel
argument only serves structural recursion; `stripAnsi` supplies enough
fuel that it is never exhausted. -/
def stripAnsiGo : Nat → List Char → List Char
  | 0, l => l
  | _ + 1, [] => []
  | fuel + 1, c :: rest =>
    if c = esc then
      match rest with
      | '[' :: rest2 =>
        match rest2.dropWhile isAnsiBody with
        | 'm' :: tail =>
          if (rest2.takeWhile isAnsiBody).isEmpty then c :: stripAnsiGo fuel rest
          else stripAnsiGo fuel tail
        | _ => c :: stripAnsiGo fuel rest
      | _ => c :: stripAnsiGo fuel rest
    else c :: stripAnsiGo fuel rest

/-- Strip all ANSI styling sequences from a line. -/
def stripAnsi (l : List Char) : List Char := stripAnsiGo l.length l

/-- Visible width of a line: its length once styling sequences are
removed.  This is the width in which the specification's
"exactly colWidth characters wide" is measured (the markers are
presentation only and are stripped for HTML output). -/
def displayLen (l : List Char) : Nat := (stripAnsi l).length

/-- Python `str.ljust` / format spec `{:<w}`: pad on the right with
spaces up to width w, never truncating. -/
def ljust (l : List Char) (w : Nat) : List Char :=
  l ++ List.replicate (w - l.length) ' '

/-- Python slicing `s[:k]` for an arbitrary (possibly negative) k. -/
def pySliceTo (s : List Char) (k : Int) : List Char :=
  if 0 ≤ k then s.take k.toNat else s.take (s.length - (-k).toNat)

/-! ### textwrap.wrap

The program wraps event titles with `textwrap.wrap(title, text_width)`.
We embed the CPython TextWrapper algorithm with its default options
(`replace_whitespace=True`, `drop_whitespace=True`,
`break_long_words=True`): whitespace is normalised to spaces, the text is
split into alternating word/whitespace chunks, and chunks are packed
greedily into lines of at most the requested width, hard-breaking words
longer than a whole line.  (The default hyphen splitting of
`break_on_hyphens` is not modelled; no claim below depends on titles
containing hyphenated over-long words.)  `textwrap.wrap` raises
ValueError for width ≤ 0; callers below guard for that. -/
/-- Replace every whitespace character by a space
(TextWrapper._munge_whitespace). -/
def munge (s : List Char) : List Char :=
  s.map (fun c => if c.isWhitespace then ' ' else c)

/-- Split into maximal runs of whitespace / non-whitespace characters
(the chunks of TextWrapper._split, without hyphen splitting). -/
def toChunks : List Char → List (List Char)
  | [] => []
  | c :: rest =>
    match toChunks rest with
    | [] => [[c]]
    | [] :: gs => [[c]] ++ [] :: gs
    | (d :: g) :: gs =>
      if c.isWhitespace = d.isWhitespace then (c :: d :: g) :: gs
      else [c] :: (d :: g) :: gs

/-- A chunk consisting of whitespace only (`chunk.strip() == ''`;
after munging all whitespace is a space). -/
def isSpaceChunk (c : List Char) : Bool := c.all (· = ' ')

/-- The greedy inner loop of TextWrapper._wrap_chunks: take chunks while
they fit into the current line. -/
def greedyTake (w : Nat) : Nat → List (List Char) → List (List Char) × List (List Char)
  | _, [] => ([], [])
  | curLen, c :: rest =>
    if curLen + c.length ≤ w then
      let p := greedyTake w (curLen + c.length) rest
      (c :: p.1, p.2)
    else ([], c :: rest)

/-- The `drop_whitespace` deletion of one leading whitespace chunk,
performed only when a line was already emitted
(`if self.drop_whitespace and chunks[-1].strip() == '' and lines`). -/
def dropLeadingWs (chunks : List (List Char)) (hasLines : Bool) : List (List Char) :=
  match chunks with
  | c0 :: rest0 => if hasLines && isSpaceChunk c0 then rest0 else c0 :: rest0
  | [] => []

/-- TextWrapper._handle_long_word with break_long_words: when the next
chunk is wider than a whole line, hard-break it at the space left on the
current line. -/
def handleLongWord (w : Nat) (p : List (List Char) × List (List Char)) :
    List (List Char) × List (List Char) :=
  match p.2 with
  | c :: rs =>
    if w < c.length then
      let spaceLeft := w - (p.1.map List.length).sum
      (p.1 ++ [c.take spaceLeft], c.drop spaceLeft :: rs)
    else p
  | [] => p

/-- The `drop_whitespace` deletion of one trailing whitespace chunk of
the current line (`if cur_line and cur_line[-1].strip() == ''`). -/
def dropTrailingWs (cur : List (List Char)) : List (List Char) :=
  match cur.getLast? with
  | some lc => if isSpaceChunk lc then cur.dropLast else cur
  | none => cur

/-- One iteration of the outer loop of TextWrapper._wrap_chunks:
optionally drop one leading whitespace chunk (when a line was already
emitted), fill greedily, hard-break an over-long word, and drop one
trailing whitespace chunk.  Returns the chunks of the line to emit
(possibly empty, in which case no line is emitted) and the remaining
chunks. -/
def wrapStep (w : Nat) (chunks : List (List Char)) (hasLines : Bool) :
    List (List Char) × List (List Char) :=
  let q := handleLongWord w (greedyTake w 0 (dropLeadingWs chunks hasLines))
  (dropTrailingWs q.1, q.2)

/-- The outer loop of TextWrapper._wrap_chunks, building one line per
iteration and emitting it if non-empty.  Fuel only drives the recursion;
`wrap` passes enough for it never to run out. -/
def wrapLoop (w : Nat) : Nat → List (List Char) → Bool → List (List Char)
  | 0, _, _ => []
  | _ + 1, [], _ => []
  | fuel + 1, c0 :: rest0, hasLines =>
    let s := wrapStep w (c0 :: rest0) hasLines
    match s.1 with
    | [] => wrapLoop w fuel s.2 hasLines
    | _ => s.1.flatten :: wrapLoop w fuel s.2 true

/-- Python `textwrap.wrap(s, w)` for w ≥ 1. -/
def wrap (s : List Char) (w : Nat) : List (List Char) :=
  let chunks := toChunks (munge s)
  wrapLoop w (chunks.flatten.length + chunks.length + 1) chunks false

/-! ### The Event data model (class Event / normalize_event) -/
/-- An event record as produced by normalize_event, plus the derived
start/end of class Event.  `start` is in minutes; `duration` is the
minute count from parse_duration.  The Python attribute `end` is a
reserved word in Lean and is called `stop` here. -/
structure Event where
  id : Nat
  start : Int
  duration : Nat
  location : String
  type : List Char
  language : List Char
  title : List Char
  subtitle : List Char
  do_not_record : Bool
  speakers : List (List Char)
  links : List (List Char)
deriving DecidableEq, Repr

/-- The derived `self.end = self.start + timedelta(minutes=data['duration'])`. -/
def Event.stop (e : Event) : Int := e.start + e.duration

/-- The test `Event.is_running_at(dt): self.start < dt < self.end`. -/
def Event.is_running_at (e : Event) (t : Int) : Bool :=
  decide (e.start < t) && decide (t < e.stop)

/-! ### The event card generator (def card) -/
/-- The card height `height = event['duration']//5 - 1` (Python floor division; duration
is a natural number, so this is natural division then minus one over the
integers). -/
def cardHeight (e : Event) : Int := (e.duration / 5 : Nat) - 1

/-- Append the ellipsis to the last kept title line: replace the final
character if the line already fills the text width, else append. -/
def ellipsize (l : List Char) (tw : Nat) : List Char :=
  if l.length = tw then l.take (tw - 1) ++ ['…'] else l ++ ['…']

/-- Keep the first maxTL title lines, marking the truncation with an
ellipsis on the last kept line (`titlelines = titlelines[:max_title_lines]`
followed by the ellipsis patch). -/
def capTo (tls : List (List Char)) (tw maxTL : Nat) : List (List Char) :=
  if maxTL < tls.length then
    let kept := tls.take maxTL
    kept.dropLast ++ [ellipsize (kept.getLastD []) tw]
  else tls

/-- The "shorten title if space is scarce" block of card: when
height ≤ 11, keep at most 1 (height ≤ 5) or 5 title lines and mark the
truncation with an ellipsis. -/
def cappedTitleLines (tls : List (List Char)) (tw : Nat) (height : Int) : List (List Char) :=
  if height ≤ 11 then capTo tls tw (if height ≤ 5 then 1 else 5) else tls

/-- Python `', '.join(event['speakers'])`. -/
def joinComma : List (List Char) → List Char
  | [] => []
  | [s] => s
  | s :: t :: rest => s ++ [',', ' '] ++ joinComma (t :: rest)

/-- The "fit speaker(s) and language in one line" block: join speakers
with ", " and shorten to text_width - 4 with an ellipsis if longer.
The comparison and the slice follow Python int semantics (both sides may
be negative for small widths). -/
def speakerText (speakers : List (List Char)) (tw : Nat) : List Char :=
  let s := joinComma speakers
  if (tw : Int) - 4 < s.length then pySliceTo s ((tw : Int) - 5) ++ ['…'] else s

/-- A rendered title line: `f'  \033[1m{line:<{text_width}}\033[0m  '`. -/
def titleLineOut (l : List Char) (tw : Nat) : List Char :=
  [' ', ' '] ++ boldOn ++ ljust l tw ++ sgrReset ++ [' ', ' ']

/-- The rendered speaker/language line:
`f'  \033[33m{speaker_str:<{text_width-4}}\033[0m  \033[38;5;246m{language:<2}\033[0m  '`. -/
def speakerLineOut (s lang : List Char) (tw : Nat) : List Char :=
  [' ', ' '] ++ yellowOn ++ ljust s (tw - 4) ++ sgrReset ++ [' ', ' '] ++
    grayOn ++ ljust lang 2 ++ sgrReset ++ [' ', ' ']

/-- The title lines the card keeps: the word-wrapped title after the
cap-and-ellipsis shortening. -/
def keptTitleLines (e : Event) (w : Nat) : List (List Char) :=
  cappedTitleLines (wrap e.title (w - 4)) (w - 4) (cardHeight e)

/-- The full sequence of lines the card generator yields when no format
error occurs: empty top line, bold title lines, blank filler up to
`height - len(titlelines) - 3`, the speaker/language line, empty bottom
line. -/
def cardBody (e : Event) (w : Nat) : List (List Char) :=
  let tw := w - 4
  let tls := keptTitleLines e w
  List.replicate w ' ' ::
    (tls.map (fun l => titleLineOut l tw) ++
      (List.replicate (cardHeight e - tls.length - 3).toNat (List.replicate w ' ') ++
        [speakerLineOut (speakerText e.speakers tw) e.language tw,
         List.replicate w ' ']))

/-- The generator `card(event, col_width)`: the lines of an event card.  The Python
function is a generator; we model the whole sequence it yields, with
`none` when running it to the end raises: `textwrap.wrap` raises
ValueError for `text_width = col_width - 4 ≤ 0` (before the first
yield), and the speaker line's format specifier `{:<{text_width-4}}`
raises ValueError for a negative width `text_width - 4 < 0`, i.e. for
every `col_width ≤ 7` the generator cannot be run to completion. -/
def card (e : Event) (w : Nat) : Option (List (List Char)) :=
  if w < 5 then none
  else if (((w - 4 : Nat) : Int) - 4) < 0 then none
  else some (cardBody e w)

/-! ### Sample events for counterexamples and witnesses -/
/-- A 5-minute event with empty title and no speakers. -/
def evShort : Event :=
  { id := 1, start := 600, duration := 5, location := "L1", type := [],
    language := ['d', 'e'], title := [], subtitle := [], do_not_record := false,
    speakers := [], links := [] }

/-- A 5-minute event with one speaker named "ab". -/
def evSpeakers : Event :=
  { id := 1, start := 600, duration := 5, location := "L1", type := [],
    language := ['d', 'e'], title := [], subtitle := [], do_not_record := false,
    speakers := [['a', 'b']], links := [] }

/-- A 25-minute event (interior height 4) whose title wraps to more than
one line at text width 16. -/
def evLongTitle : Event :=
  { id := 2, start := 600, duration := 25, location := "L1", type := [],
    language := ['e', 'n'],
    title := "International Conference on Gulasch Technology".toList,
    subtitle := [], do_not_record := false,
    speakers := [['B', 'o', 'b']], links := [] }

/-! ### The junction glyph table (seperators / get_seperator) -/
/-- The vertical bar UD = '│'. -/
def UD : Char := '│'

/-- The horizontal rule LR = '─'. -/
def LR : Char := '─'

/-- The two-boundary separator dictionary of timetable. -/
def seperators : List ((Bool × Bool × Bool × Bool) × Char) :=
  [((false, true, true, false), '┬'),
   ((true, false, false, true), '┴'),
   ((false, false, true, true), '┤'),
   ((true, true, false, false), '├'),
   ((false, true, false, true), '┼'),
   ((true, false, true, false), '┼')]

/-- Python dict lookup on the separator table; none models a KeyError. -/
def lookupSep : List ((Bool × Bool × Bool × Bool) × Char) → (Bool × Bool × Bool × Bool) →
    Option Char
  | [], _ => none
  | (k, v) :: rest, key => if k = key then some v else lookupSep rest key

/-- get_seperator(upright, downright, downleft, upleft): three or more
boundaries give a cross; exactly one gives the corner
('└', '┌', '┐', '┘') indexed by the position of the first (only) true
argument (args.index(True)); otherwise the dictionary is consulted
(raising — none — for the all-false tuple). -/
def get_seperator (a b c d : Bool) : Option Char :=
  if 3 ≤ a.toNat + b.toNat + c.toNat + d.toNat then some '┼'
  else if a.toNat + b.toNat + c.toNat + d.toNat = 1 then
    some (if a then '└' else if b then '┌' else if c then '┐' else '┘')
  else lookupSep seperators (a, b, c, d)

/-- Modelled from the spec (section 4.2 junction table), for comparison
with get_seperator: three or more true gives '┼'; exactly one true gives
'└','┌','┐','┘' indexed by which position is true; the six two-true rows
as listed.  The all-false tuple is never consulted; it is given an
arbitrary value here. -/
def specJunction (a b c d : Bool) : Char :=
  match a, b, c, d with
  | true, false, false, false => '└'
  | false, true, false, false => '┌'
  | false, false, true, false => '┐'
  | false, false, false, true => '┘'
  | false, true, true, false => '┬'
  | true, false, false, true => '┴'
  | false, false, true, true => '┤'
  | true, true, false, false => '├'
  | false, true, false, true => '┼'
  | true, false, true, false => '┼'
  | false, false, false, false => ' '
  | _, _, _, _ => '┼'

/-! ### The timetable layout engine (def timetable) -/
/-- Row timestamps: the rrule enumeration at minutes 0,5,...,55 of each
hour from global_start to global_end inclusive.  With timestamps in
minutes from an hour-aligned epoch these are exactly the t in [gs, ge]
divisible by 5, in increasing order. -/
def rowTimes (gs ge : Int) : List Int :=
  let first := gs + (5 - gs % 5) % 5
  if ge < first then []
  else (List.range (((ge - first) / 5).toNat + 1)).map (fun i : Nat => first + 5 * (i : Int))

/-- The tick test `dt in tick_times` for a dt between global_start and
global_end: minute-of-hour 0 or 30, i.e. divisibility by 30. -/
def isTick (t : Int) : Bool := t % 30 = 0

def digitChar (n : Nat) : Char := Char.ofNat (48 + n % 10)

def twoDigits (n : Nat) : List Char := [digitChar (n / 10 % 10), digitChar (n % 10)]

/-- The row label `f'{dt:%H:%M} --'` (8 characters). -/
def timeLabel (t : Int) : List Char :=
  twoDigits ((t / 60) % 24).toNat ++ [':'] ++ twoDigits (t % 60).toNat ++ [' ', '-', '-']

/-- The per-render mapping cards_by_id from event id to the lines the
event's card generator has yet to yield. -/
abbrev CardMap := List (Nat × List (List Char))

def getCard : CardMap → Nat → Option (List (List Char))
  | [], _ => none
  | (k, v) :: rest, i => if k = i then some v else getCard rest i

def setCard : CardMap → Nat → List (List Char) → CardMap
  | [], i, v => [(i, v)]
  | (k, u) :: rest, i, v => if k = i then (i, v) :: rest else (k, u) :: setCard rest i v

/-- A call `next(cards_by_id[id])`: return the generator's next line and
advance it; none models a StopIteration (or an error raised inside the
generator body) propagating out of timetable. -/
def popCard (m : CardMap) (i : Nat) : Option (List Char × CardMap) :=
  match getCard m i with
  | some (l :: rest) => some (l, setCard m i rest)
  | _ => none

/-- cards_by_id = {e['id']: card(e, col_width) for e in events}; a later
event overwrites an earlier one with the same id as in a dict
comprehension.  In Python creating a generator never raises — the card
errors of small widths surface lazily at next(); they are modelled
eagerly here, which coincides for col_width ≥ 8 (where no card error
exists) and for the empty event list. -/
def buildCards (events : List Event) (w : Nat) : Option CardMap :=
  events.foldlM (fun m e => (card e w).map (fun ls => setCard m e.id ls)) []

/-- events_by_location[loc]. -/
def eventsAt (events : List Event) (loc : String) : List Event :=
  events.filter (fun e => decide (e.location = loc))

/-- The first event of the location starting at t, if any. -/
def findStart (evs : List Event) (t : Int) : Option Event :=
  evs.find? (fun e => decide (e.start = t))

/-- The first event of the location running strictly inside t, if any. -/
def findRun (evs : List Event) (t : Int) : Option Event :=
  evs.find? (fun e => e.is_running_at t)

/-- The first event of the location ending at t, if any. -/
def findStop (evs : List Event) (t : Int) : Option Event :=
  evs.find? (fun e => decide (e.stop = t))

/-- The first-location cell of a row: corner/junction plus a full
horizontal rule on a boundary; vertical bar plus the next card line when
running; else fill characters. -/
def firstCell (w : Nat) (fill : Char) (ebl : String → List Event) (t : Int)
    (cards : CardMap) (loc : String) : Option (List Char × CardMap) :=
  let s := findStart (ebl loc) t
  let r := findRun (ebl loc) t
  let e := findStop (ebl loc) t
  if s.isSome || e.isSome then
    (get_seperator e.isSome s.isSome false false).map
      (fun ch => (ch :: List.replicate w LR, cards))
  else
    match r with
    | some ev => (popCard cards ev.id).map (fun p => (UD :: p.1, p.2))
    | none => some (List.replicate (w + 1) fill, cards)

/-- The separator choice between two adjacent location columns: forced
tees when one side runs through and the other has a boundary, else the
junction table when any boundary bit is set, else a vertical bar when
either side runs through, else the fill character.  The six booleans are
the isSome bits of (start1, run1, end1, start2, run2, end2). -/
def pairSep (fill : Char) (s1 r1 e1 s2 r2 e2 : Bool) : Option Char :=
  if r1 && (s2 || e2) then some '├'
  else if r2 && (s1 || e1) then some '┤'
  else if e2 || s2 || s1 || e1 then get_seperator e2 s2 s1 e1
  else if r1 || r2 then some UD
  else some fill

/-- The separator between two adjacent location columns, and the right
column's row content. -/
def pairStep (w : Nat) (fill : Char) (ebl : String → List Event) (t : Int)
    (cards : CardMap) (loc1 loc2 : String) : Option (List Char × CardMap) :=
  let s1 := findStart (ebl loc1) t
  let r1 := findRun (ebl loc1) t
  let e1 := findStop (ebl loc1) t
  let s2 := findStart (ebl loc2) t
  let r2 := findRun (ebl loc2) t
  let e2 := findStop (ebl loc2) t
  (pairSep fill s1.isSome r1.isSome e1.isSome s2.isSome r2.isSome e2.isSome).bind
    fun sc =>
      match r2 with
      | some ev => (popCard cards ev.id).map (fun p => (sc :: p.1, p.2))
      | none =>
        if s2.isSome || e2.isSome then some (sc :: List.replicate w LR, cards)
        else some (sc :: List.replicate w fill, cards)

/-- The right edge of a row, from the last location's boundaries alone. -/
def lastEdge (fill : Char) (ebl : String → List Event) (t : Int) (loc : String) :
    Option Char :=
  let s := findStart (ebl loc) t
  let r := findRun (ebl loc) t
  let e := findStop (ebl loc) t
  if s.isSome || e.isSome then get_seperator false false s.isSome e.isSome
  else if r.isSome then some UD
  else some fill

/-- The `for loc1, loc2 in zip(locations[:-1], locations[1:])` loop. -/
def pairsLoop (w : Nat) (fill : Char) (ebl : String → List Event) (t : Int) :
    String → List String → CardMap → Option (List Char × CardMap)
  | _, [], cards => some ([], cards)
  | prev, loc :: rest, cards =>
    (pairStep w fill ebl t cards prev loc).bind fun p =>
      (pairsLoop w fill ebl t loc rest p.2).map fun q => (p.1 ++ q.1, q.2)

/-- One output row of the timetable for timestamp t; none when the
Python loop body raises (locations[0] on an empty list, or generator
exhaustion in a next() call). -/
def rowLine (w : Nat) (locations : List String) (ebl : String → List Event)
    (cards : CardMap) (t : Int) : Option (List Char × CardMap) :=
  match locations with
  | [] => none
  | loc0 :: rest =>
    let fill : Char := if isTick t then '-' else ' '
    let label : List Char := if isTick t then timeLabel t else List.replicate 8 ' '
    (firstCell w fill ebl t cards loc0).bind fun p =>
      (pairsLoop w fill ebl t loc0 rest p.2).bind fun q =>
        (lastEdge fill ebl t (rest.getLastD loc0)).map fun edge =>
          (label ++ p.1 ++ q.1 ++ [edge], q.2)

/-- The row loop of timetable, threading the card cursors. -/
def rowsLoop (w : Nat) (locations : List String) (ebl : String → List Event) :
    List Int → CardMap → Option (List (List Char))
  | [], _ => some []
  | t :: ts, cards =>
    (rowLine w locations ebl cards t).bind fun p =>
      (rowsLoop w locations ebl ts p.2).map fun rows => p.1 :: rows

/-- global_start = min(e.start for e in events) (non-empty events). -/
def globalStart : List Event → Int
  | [] => 0
  | e :: rest => rest.foldl (fun a f => min a f.start) e.start

/-- global_end = max(e.end for e in events) (non-empty events). -/
def globalEnd : List Event → Int
  | [] => 0
  | e :: rest => rest.foldl (fun a f => max a f.stop) e.stop

/-- Python `'|'.join(...)`. -/
def joinBar : List (List Char) → List Char
  | [] => []
  | [s] => s
  | s :: t :: rest => s ++ '|' :: joinBar (t :: rest)

/-- The header line:
`'        |' + '|'.join(f' {loc:<{col_width-2}} ' for loc in locations)`. -/
def headerLine (w : Nat) (locations : List String) : List Char :=
  List.replicate 8 ' ' ++ '|' ::
    joinBar (locations.map (fun loc => ' ' :: (ljust loc.data (w - 2) ++ [' '])))

/-- The visible location columns: DATA['locations'] filtered down to
locations referenced by the events, order preserved. -/
def visibleLocations (allLocs : List String) (events : List Event) : List String :=
  allLocs.filter (fun loc => events.any (fun e => decide (e.location = loc)))

/-- The header plus the row lines of the timetable for a non-empty event
list, before joining with newlines. -/
def timetableLines (allLocs : List String) (events : List Event) (w : Nat) :
    Option (List (List Char)) :=
  let locations := visibleLocations allLocs events
  (buildCards events w).bind fun cards0 =>
    (rowsLoop w locations (eventsAt events)
        (rowTimes (globalStart events) (globalEnd events)) cards0).map
      fun rows => headerLine w locations :: rows

/-- The sentinel returned for an empty event list. -/
def noEventsMsg : List Char := "Currently no upcoming events".data

/-- Python `'\n'.join(lines)`. -/
def joinLines : List (List Char) → List Char
  | [] => []
  | [s] => s
  | s :: t :: rest => s ++ '\n' :: joinLines (t :: rest)

/-- timetable(events, col_width): the sentinel for an empty event list,
else the header plus one line per 5-minute row, joined with newlines;
none when the Python function raises (empty visible location list,
generator exhaustion, or a card error). -/
def timetable (allLocs : List String) (events : List Event) (w : Nat) :
    Option (List Char) :=
  if events.isEmpty then some noEventsMsg
  else (timetableLines allLocs events w).map joinLines

/-! ### The Event Store / Refresh Scheduler (def update)

The module-level DATA / META_DATA dictionaries are modelled as an
explicit state passed to and returned by update; the transport layer is
abstracted to a response carrying a status code and the decoded
schedule payload (with events already normalized, normalize_event being
a field-by-field record construction). -/
/-- One day of the schedule: its rooms with their event lists
(day['rooms'] as an ordered association). -/
structure Day where
  rooms : List (String × List Event)

/-- The decoded fahrplan payload
(data['schedule']['conference']['days']). -/
structure Schedule where
  days : List Day

/-- A fetch response: aiohttp status plus the decoded body. -/
structure Response where
  status : Nat
  body : Schedule

/-- The module state: DATA['locations'], DATA['events'] and
META_DATA['last_update']. -/
structure StoreState where
  locations : List String
  events : List Event
  last_update : Option Int

/-- normalize(data): locations are the first day's room keys, events the
concatenation over all days and rooms; none models the IndexError on an
empty day list. -/
def normalize (data : Schedule) : Option (List String × List Event) :=
  match data.days with
  | [] => none
  | d0 :: _ =>
    some (d0.rooms.map Prod.fst,
      data.days.flatMap (fun d => d.rooms.flatMap Prod.snd))

/-- update(): on a success status (< 300) replace DATA['locations'],
DATA['events'] and record META_DATA['last_update']; on a non-success
status return immediately, leaving the state untouched.  none models an
exception during decoding/normalization. -/
def update (st : StoreState) (now : Int) (resp : Response) : Option StoreState :=
  if resp.status < 300 then
    (normalize resp.body).map
      (fun p => { locations := p.1, events := p.2, last_update := some now })
  else some st

/-! ### Sample data for the timetable claims -/
/-- Event A of spec scenario B: 10:00-10:30 in location L1. -/
def evA : Event :=
  { id := 1, start := 600, duration := 30, location := "L1", type := [],
    language := ['d', 'e'], title := ['A'], subtitle := [], do_not_record := false,
    speakers := [], links := [] }

/-- Event B of spec scenario B: 10:00-10:30 in location L2. -/
def evB : Event :=
  { id := 2, start := 600, duration := 30, location := "L2", type := [],
    language := ['d', 'e'], title := ['B'], subtitle := [], do_not_record := false,
    speakers := [], links := [] }

/-- A 26-minute event: its card yields max(26/5 - 1, 1 + 3) = 4 lines
but five row timestamps (5, 10, 15, 20, 25) fall strictly inside it. -/
def evOdd : Event :=
  { id := 3, start := 0, duration := 26, location := "L1", type := [],
    language := ['d', 'e'], title := ['T'], subtitle := [], do_not_record := false,
    speakers := [], links := [] }

/-- A sample store state. -/
def sampleStore : StoreState :=
  { locations := ["L1"], events := [evA], last_update := none }

/-- A failed fetch: HTTP 404. -/
def failResponse : Response :=
  { status := 404, body := { days := [] } }

/-! ### Lemmas towards the timetable row-count theorem (C2) -/
/-- The spec's per-location precondition: events sharing a location are
pairwise non-overlapping (back-to-back is allowed). -/
def NonOverlapping (events : List Event) : Prop :=
  ∀ e ∈ events, ∀ f ∈ events, e ≠ f → e.location = f.location →
    e.stop ≤ f.start ∨ f.stop ≤ e.start

instance decidableNonOverlapping (events : List Event) : Decidable (NonOverlapping events) :=
  inferInstanceAs (Decidable (∀ e ∈ events, ∀ f ∈ events, e ≠ f → e.location = f.location →
    e.stop ≤ f.start ∨ f.stop ≤ e.start))

/-- The number of remaining row timestamps strictly inside an event. -/
def runCount (e : Event) (ts : List Int) : Nat :=
  (ts.filter (fun t => e.is_running_at t)).length

/-- The cursor invariant threaded through the row loop: every event
still has its card lines, at least as many as the remaining row
timestamps it is running at. -/
def CardsInv (events : List Event) (cards : CardMap) (ts : List Int) : Prop :=
  ∀ e ∈ events, ∃ ls, getCard cards e.id = some ls ∧ runCount e ts ≤ ls.length

/-! ### Theorems -/

/-! ### Lemmas about ANSI stripping -/
theorem stripAnsiGo_nil (f : Nat) : stripAnsiGo f [] = [] := by
  cases f <;> rfl

theorem stripAnsiGo_cons_noesc (f : Nat) (c : Char) (t : List Char) (hc : c ≠ esc) :
    stripAnsiGo (f + 1) (c :: t) = c :: stripAnsiGo f t := by
  simp [stripAnsiGo, hc]

theorem stripAnsiGo_append_noesc :
    ∀ (l : List Char) (fuel : Nat) (m : List Char), esc ∉ l → l.length + m.length ≤ fuel →
      stripAnsiGo fuel (l ++ m) = l ++ stripAnsiGo (fuel - l.length) m := by
  intro l
  induction l with
  | nil => intro fuel m _ _; simp
  | cons c t ih =>
    intro fuel m hesc hlen
    obtain ⟨f, rfl⟩ : ∃ f, fuel = f + 1 := ⟨fuel - 1, by simp at hlen; omega⟩
    have hc : c ≠ esc := fun h => hesc (by rw [← h]; exact List.mem_cons_self c t)
    rw [List.cons_append, stripAnsiGo_cons_noesc f c (t ++ m) hc,
      ih f m (fun h => hesc (List.mem_cons_of_mem _ h)) (by simp at hlen; omega)]
    have h2 : f + 1 - (c :: t).length = f - t.length := by simp <;> omega
    rw [h2, List.cons_append]

theorem stripAnsiGo_boldOn (f : Nat) (m : List Char) :
    stripAnsiGo (f + 1) (boldOn ++ m) = stripAnsiGo f m := rfl

theorem stripAnsiGo_sgrReset (f : Nat) (m : List Char) :
    stripAnsiGo (f + 1) (sgrReset ++ m) = stripAnsiGo f m := rfl

theorem stripAnsiGo_yellowOn (f : Nat) (m : List Char) :
    stripAnsiGo (f + 1) (yellowOn ++ m) = stripAnsiGo f m := rfl

theorem stripAnsiGo_grayOn (f : Nat) (m : List Char) :
    stripAnsiGo (f + 1) (grayOn ++ m) = stripAnsiGo f m := rfl

theorem stripAnsiGo_noesc (l : List Char) (fuel : Nat) (h : esc ∉ l) (hf : l.length ≤ fuel) :
    stripAnsiGo fuel l = l := by
  have h2 := stripAnsiGo_append_noesc l fuel [] h (by simpa)
  simpa [stripAnsiGo_nil] using h2

theorem displayLen_noesc (l : List Char) (h : esc ∉ l) : displayLen l = l.length := by
  simp [displayLen, stripAnsi, stripAnsiGo_noesc l l.length h le_rfl]

theorem stripAnsi_titleShape (x : List Char) (hx : esc ∉ x) :
    stripAnsi ([' ', ' '] ++ boldOn ++ x ++ sgrReset ++ [' ', ' ']) =
      [' ', ' '] ++ x ++ [' ', ' '] := by
  unfold stripAnsi
  have hN : ([' ', ' '] ++ boldOn ++ x ++ sgrReset ++ [' ', ' ']).length = x.length + 12 := by
    simp [boldOn, sgrReset] <;> omega
  rw [hN, List.append_assoc, List.append_assoc, List.append_assoc,
    stripAnsiGo_append_noesc [' ', ' '] _ _ (by decide) (by simp [boldOn, sgrReset] <;> omega)]
  have h2 : x.length + 12 - ([' ', ' '] : List Char).length = (x.length + 9) + 1 := by
    simp <;> omega
  rw [h2, stripAnsiGo_boldOn,
    stripAnsiGo_append_noesc x _ _ hx (by simp [sgrReset] <;> omega)]
  have h3 : x.length + 9 - x.length = 8 + 1 := by omega
  rw [h3, stripAnsiGo_sgrReset, stripAnsiGo_noesc [' ', ' '] 8 (by decide) (by simp)]
  simp

theorem displayLen_titleLineOut (l : List Char) (tw : Nat) (h : esc ∉ ljust l tw) :
    displayLen (titleLineOut l tw) = (ljust l tw).length + 4 := by
  rw [displayLen, titleLineOut, stripAnsi_titleShape _ h]
  simp <;> omega

theorem stripAnsi_speakerShape (x y : List Char) (hx : esc ∉ x) (hy : esc ∉ y) :
    stripAnsi ([' ', ' '] ++ yellowOn ++ x ++ sgrReset ++ [' ', ' '] ++
        grayOn ++ y ++ sgrReset ++ [' ', ' ']) =
      [' ', ' '] ++ x ++ [' ', ' '] ++ y ++ [' ', ' '] := by
  unfold stripAnsi
  have hN : ([' ', ' '] ++ yellowOn ++ x ++ sgrReset ++ [' ', ' '] ++
      grayOn ++ y ++ sgrReset ++ [' ', ' ']).length = x.length + y.length + 30 := by
    simp [yellowOn, sgrReset, grayOn] <;> omega
  rw [hN, List.append_assoc, List.append_assoc, List.append_assoc, List.append_assoc,
    List.append_assoc, List.append_assoc, List.append_assoc,
    stripAnsiGo_append_noesc [' ', ' '] _ _ (by decide)
      (by simp [yellowOn, sgrReset, grayOn] <;> omega)]
  have h2 : x.length + y.length + 30 - ([' ', ' '] : List Char).length =
      (x.length + y.length + 27) + 1 := by simp <;> omega
  rw [h2, stripAnsiGo_yellowOn,
    stripAnsiGo_append_noesc x _ _ hx (by simp [sgrReset, grayOn] <;> omega)]
  have h3 : x.length + y.length + 27 - x.length = (y.length + 26) + 1 := by omega
  rw [h3, stripAnsiGo_sgrReset,
    stripAnsiGo_append_noesc [' ', ' '] _ _ (by decide) (by simp [grayOn, sgrReset] <;> omega)]
  have h4 : y.length + 26 - ([' ', ' '] : List Char).length = (y.length + 23) + 1 := by
    simp <;> omega
  rw [h4, stripAnsiGo_grayOn,
    stripAnsiGo_append_noesc y _ _ hy (by simp [sgrReset] <;> omega)]
  have h5 : y.length + 23 - y.length = 22 + 1 := by omega
  rw [h5, stripAnsiGo_sgrReset, stripAnsiGo_noesc [' ', ' '] 22 (by decide) (by simp)]
  simp

theorem displayLen_speakerLineOut (s lang : List Char) (tw : Nat)
    (hs : esc ∉ ljust s (tw - 4)) (hl : esc ∉ ljust lang 2) :
    displayLen (speakerLineOut s lang tw) =
      (ljust s (tw - 4)).length + (ljust lang 2).length + 6 := by
  rw [displayLen, speakerLineOut]
  rw [stripAnsi_speakerShape _ _ hs hl]
  simp <;> omega

theorem ljust_length (l : List Char) (w : Nat) : (ljust l w).length = max l.length w := by
  simp [ljust]; omega

theorem esc_not_mem_replicate (n : Nat) : esc ∉ List.replicate n ' ' := by
  intro h
  have := List.eq_of_mem_replicate h
  exact absurd this (by decide)

theorem esc_not_mem_ljust (l : List Char) (w : Nat) (h : esc ∉ l) : esc ∉ ljust l w := by
  simp only [ljust, List.mem_append]
  rintro (h1 | h2)
  · exact h h1
  · exact esc_not_mem_replicate _ h2

theorem displayLen_replicate (n : Nat) :
    displayLen (List.replicate n ' ') = n := by
  rw [displayLen_noesc _ (esc_not_mem_replicate n), List.length_replicate]

/-! ### Lemmas about the wrap embedding -/
theorem greedyTake_sum_le (w : Nat) :
    ∀ (chunks : List (List Char)) (curLen : Nat), curLen ≤ w →
      ((greedyTake w curLen chunks).1.map List.length).sum + curLen ≤ w := by
  intro chunks
  induction chunks with
  | nil => intro curLen h; simpa [greedyTake]
  | cons c rest ih =>
    intro curLen h
    rw [greedyTake]
    split
    · rename_i hfit
      have := ih (curLen + c.length) hfit
      simp only [List.map_cons, List.sum_cons]
      omega
    · simpa [greedyTake]

theorem greedyTake_fst_subset (w : Nat) :
    ∀ (chunks : List (List Char)) (curLen : Nat) (c : List Char),
      c ∈ (greedyTake w curLen chunks).1 → c ∈ chunks := by
  intro chunks
  induction chunks with
  | nil => intro curLen c h; simp [greedyTake] at h
  | cons d rest ih =>
    intro curLen c h
    rw [greedyTake] at h
    split at h
    · rcases List.mem_cons.1 h with h1 | h1
      · exact h1 ▸ List.mem_cons_self d rest
      · exact List.mem_cons_of_mem _ (ih _ _ h1)
    · simp at h

theorem greedyTake_snd_subset (w : Nat) :
    ∀ (chunks : List (List Char)) (curLen : Nat) (c : List Char),
      c ∈ (greedyTake w curLen chunks).2 → c ∈ chunks := by
  intro chunks
  induction chunks with
  | nil => intro curLen c h; simp [greedyTake] at h
  | cons d rest ih =>
    intro curLen c h
    rw [greedyTake] at h
    split at h
    · exact List.mem_cons_of_mem _ (ih _ _ h)
    · simpa using h

theorem sublist_sum_le_nat {l1 l2 : List Nat} (h : l1.Sublist l2) : l1.sum ≤ l2.sum := by
  induction h with
  | slnil => exact le_rfl
  | cons a h2 ih => simp only [List.sum_cons]; omega
  | cons₂ a h2 ih => simp only [List.sum_cons]; omega

theorem sum_map_length_dropLast_le (l : List (List Char)) :
    ((l.dropLast).map List.length).sum ≤ (l.map List.length).sum :=
  sublist_sum_le_nat ((List.dropLast_sublist l).map List.length)

theorem mem_dropLast_imp_mem {α : Type} {x : α} {l : List α}
    (h : x ∈ l.dropLast) : x ∈ l :=
  (List.dropLast_sublist l).subset h

theorem handleLongWord_sum_le (w : Nat) (p : List (List Char) × List (List Char))
    (h : (p.1.map List.length).sum ≤ w) :
    (((handleLongWord w p).1).map List.length).sum ≤ w := by
  rw [handleLongWord]
  split
  · split
    · rename_i c rs heq hlong
      simp only [List.map_append, List.sum_append, List.map_cons, List.sum_cons,
        List.map_nil, List.sum_nil, List.length_take]
      omega
    · exact h
  · exact h

theorem dropTrailingWs_sum_le (cur : List (List Char)) :
    (((dropTrailingWs cur).map List.length).sum) ≤ ((cur.map List.length).sum) := by
  rw [dropTrailingWs]
  split
  · split
    · exact sum_map_length_dropLast_le cur
    · exact le_rfl
  · exact le_rfl

theorem wrapStep_sum_le (w : Nat) (chunks : List (List Char)) (b : Bool) :
    (((wrapStep w chunks b).1).map List.length).sum ≤ w := by
  rw [wrapStep]
  refine le_trans (dropTrailingWs_sum_le _) ?_
  refine handleLongWord_sum_le w _ ?_
  have := greedyTake_sum_le w (dropLeadingWs chunks b) 0 (Nat.zero_le w)
  omega

theorem handleLongWord_fst_chars (w : Nat) (p : List (List Char) × List (List Char))
    (pr : Char → Prop)
    (h1 : ∀ ch ∈ p.1, ∀ c ∈ ch, pr c) (h2 : ∀ ch ∈ p.2, ∀ c ∈ ch, pr c) :
    ∀ ch ∈ (handleLongWord w p).1, ∀ c ∈ ch, pr c := by
  rw [handleLongWord]
  split
  · split
    · rename_i c rs heq hlong
      intro ch hch
      rcases List.mem_append.1 hch with hm | hm
      · exact h1 ch hm
      · have : ch = c.take (w - (p.1.map List.length).sum) := by simpa using hm
        subst this
        intro x hx
        exact h2 c (heq ▸ List.mem_cons_self c rs) x (List.mem_of_mem_take hx)
    · exact h1
  · exact h1

theorem handleLongWord_snd_chars (w : Nat) (p : List (List Char) × List (List Char))
    (pr : Char → Prop)
    (h2 : ∀ ch ∈ p.2, ∀ c ∈ ch, pr c) :
    ∀ ch ∈ (handleLongWord w p).2, ∀ c ∈ ch, pr c := by
  rw [handleLongWord]
  split
  · split
    · rename_i c rs heq hlong
      intro ch hch
      rcases List.mem_cons.1 hch with hm | hm
      · subst hm
        intro x hx
        exact h2 c (heq ▸ List.mem_cons_self c rs) x (List.mem_of_mem_drop hx)
      · exact h2 ch (heq ▸ List.mem_cons_of_mem c hm)
    · exact h2
  · exact h2

theorem dropLeadingWs_subset (chunks : List (List Char)) (b : Bool) :
    ∀ ch ∈ dropLeadingWs chunks b, ch ∈ chunks := by
  rw [dropLeadingWs.eq_def]
  split
  · split
    · rename_i c0 rest0 _
      exact fun ch h => List.mem_cons_of_mem c0 h
    · exact fun ch h => h
  · exact fun ch h => h

theorem dropTrailingWs_subset (cur : List (List Char)) :
    ∀ ch ∈ dropTrailingWs cur, ch ∈ cur := by
  rw [dropTrailingWs]
  split
  · split
    · exact fun ch h => mem_dropLast_imp_mem h
    · exact fun ch h => h
  · exact fun ch h => h

theorem wrapStep_fst_chars (w : Nat) (chunks : List (List Char)) (b : Bool)
    (pr : Char → Prop) (h : ∀ ch ∈ chunks, ∀ c ∈ ch, pr c) :
    ∀ ch ∈ (wrapStep w chunks b).1, ∀ c ∈ ch, pr c := by
  rw [wrapStep]
  intro ch hch
  refine handleLongWord_fst_chars w _ pr ?_ ?_ ch (dropTrailingWs_subset _ ch hch)
  · exact fun ch2 h2 => h ch2 (dropLeadingWs_subset chunks b ch2
      (greedyTake_fst_subset w _ 0 ch2 h2))
  · exact fun ch2 h2 => h ch2 (dropLeadingWs_subset chunks b ch2
      (greedyTake_snd_subset w _ 0 ch2 h2))

theorem wrapStep_snd_chars (w : Nat) (chunks : List (List Char)) (b : Bool)
    (pr : Char → Prop) (h : ∀ ch ∈ chunks, ∀ c ∈ ch, pr c) :
    ∀ ch ∈ (wrapStep w chunks b).2, ∀ c ∈ ch, pr c := by
  rw [wrapStep]
  refine handleLongWord_snd_chars w _ pr ?_
  exact fun ch2 h2 => h ch2 (dropLeadingWs_subset chunks b ch2
    (greedyTake_snd_subset w _ 0 ch2 h2))

theorem wrapLoop_length_le (w : Nat) :
    ∀ (fuel : Nat) (chunks : List (List Char)) (b : Bool),
      ∀ l ∈ wrapLoop w fuel chunks b, l.length ≤ w := by
  intro fuel
  induction fuel with
  | zero => intro chunks b l h; simp [wrapLoop] at h
  | succ f ih =>
    intro chunks b l h
    match chunks with
    | [] => simp [wrapLoop] at h
    | c0 :: rest0 =>
      rw [wrapLoop] at h
      split at h
      · exact ih _ _ l h
      · rcases List.mem_cons.1 h with h1 | h1
        · subst h1
          rw [List.length_flatten]
          exact wrapStep_sum_le w (c0 :: rest0) b
        · exact ih _ _ l h1

theorem wrapLoop_chars (w : Nat) (pr : Char → Prop) :
    ∀ (fuel : Nat) (chunks : List (List Char)) (b : Bool),
      (∀ ch ∈ chunks, ∀ c ∈ ch, pr c) →
      ∀ l ∈ wrapLoop w fuel chunks b, ∀ c ∈ l, pr c := by
  intro fuel
  induction fuel with
  | zero => intro chunks b _ l h; simp [wrapLoop] at h
  | succ f ih =>
    intro chunks b hch l h
    match chunks with
    | [] => simp [wrapLoop] at h
    | c0 :: rest0 =>
      rw [wrapLoop] at h
      split at h
      · exact ih _ _ (wrapStep_snd_chars w _ b pr hch) l h
      · rcases List.mem_cons.1 h with h1 | h1
        · subst h1
          intro c hc
          rcases List.mem_flatten.1 hc with ⟨ch, hch2, hc2⟩
          exact wrapStep_fst_chars w _ b pr hch ch hch2 c hc2
        · exact ih _ _ (wrapStep_snd_chars w _ b pr hch) l h1

theorem wrap_length_le (s : List Char) (w : Nat) :
    ∀ l ∈ wrap s w, l.length ≤ w := by
  intro l h
  exact wrapLoop_length_le w _ _ _ l h

theorem toChunks_flatten (s : List Char) : (toChunks s).flatten = s := by
  induction s with
  | nil => rfl
  | cons c rest ih =>
    rw [toChunks]
    split
    · rename_i heq
      rw [heq] at ih
      simp at ih
      simp [ih]
    · rename_i gs heq
      rw [heq] at ih
      simpa using ih
    · rename_i d g gs heq
      rw [heq] at ih
      split <;> simpa using ih

theorem munge_mem (s : List Char) (c : Char) (h : c ∈ munge s) : c = ' ' ∨ c ∈ s := by
  rcases List.mem_map.1 h with ⟨d, hd, hdc⟩
  by_cases hw : d.isWhitespace = true
  · left; rw [if_pos hw] at hdc; exact hdc.symm
  · right; rw [if_neg hw] at hdc; exact hdc ▸ hd

theorem wrap_chars_noesc (s : List Char) (w : Nat) (hs : esc ∉ s) :
    ∀ l ∈ wrap s w, esc ∉ l := by
  intro l hl hmem
  rw [wrap] at hl
  refine wrapLoop_chars w (· ≠ esc) _ _ _ ?_ l hl esc hmem rfl
  intro ch hch c hc hcesc
  subst hcesc
  have h1 : esc ∈ (toChunks (munge s)).flatten := List.mem_flatten.2 ⟨ch, hch, hc⟩
  rw [toChunks_flatten] at h1
  rcases munge_mem s esc h1 with h2 | h2
  · exact absurd h2 (by decide)
  · exact hs h2

/-! ### Lemmas about the card generator -/
theorem getLastD_mem {α : Type} : ∀ (l : List α) (d : α), l ≠ [] → l.getLastD d ∈ l := by
  intro l
  induction l with
  | nil => intro d h; exact absurd rfl h
  | cons a t ih =>
    intro d h
    rw [List.getLastD_cons]
    cases t with
    | nil => simp [List.getLastD_nil]
    | cons b t2 => exact List.mem_cons_of_mem a (ih a (by simp))

theorem ellipsize_length_le (l : List Char) (tw : Nat) (htw : 1 ≤ tw)
    (hl : l.length ≤ tw) : (ellipsize l tw).length ≤ tw := by
  rw [ellipsize]
  split
  · rename_i heq
    simp only [List.length_append, List.length_take, List.length_cons, List.length_nil]
    omega
  · rename_i hne
    simp only [List.length_append, List.length_cons, List.length_nil]
    omega

theorem ellipsize_noesc (l : List Char) (tw : Nat) (h : esc ∉ l) :
    esc ∉ ellipsize l tw := by
  rw [ellipsize]
  split
  · intro hm
    rcases List.mem_append.1 hm with hm1 | hm1
    · exact h (List.mem_of_mem_take hm1)
    · exact absurd (by simpa using hm1) (by decide)
  · intro hm
    rcases List.mem_append.1 hm with hm1 | hm1
    · exact h hm1
    · exact absurd (by simpa using hm1) (by decide)

theorem ellipsize_getLast (l : List Char) (tw : Nat) :
    (ellipsize l tw).getLast? = some '…' := by
  rw [ellipsize]
  split <;> rw [List.getLast?_concat]

theorem capTo_bound (tls : List (List Char)) (tw maxTL : Nat) (htw : 1 ≤ tw)
    (hm1 : 1 ≤ maxTL)
    (hb : ∀ a ∈ tls, a.length ≤ tw) (hne : ∀ a ∈ tls, esc ∉ a) :
    ∀ a ∈ capTo tls tw maxTL, a.length ≤ tw ∧ esc ∉ a := by
  rw [capTo]
  split
  · rename_i hcap
    intro a ha
    rcases List.mem_append.1 ha with hm | hm
    · have hmem : a ∈ tls :=
        List.mem_of_mem_take (mem_dropLast_imp_mem hm)
      exact ⟨hb a hmem, hne a hmem⟩
    · have ha2 : a = ellipsize ((tls.take maxTL).getLastD []) tw := by
        simpa using hm
      have hkept : tls.take maxTL ≠ [] := by
        have h1 : tls ≠ [] := by
          intro h2
          rw [h2] at hcap
          simp at hcap
        intro h2
        rw [List.take_eq_nil_iff] at h2
        rcases h2 with h2 | h2
        · omega
        · exact h1 h2
      have hlast : (tls.take maxTL).getLastD [] ∈ tls :=
        List.mem_of_mem_take (getLastD_mem _ [] hkept)
      subst ha2
      exact ⟨ellipsize_length_le _ tw htw (hb _ hlast),
        ellipsize_noesc _ tw (hne _ hlast)⟩
  · exact fun a ha => ⟨hb a ha, hne a ha⟩

theorem cappedTitleLines_bound (tls : List (List Char)) (tw : Nat) (h : Int) (htw : 1 ≤ tw)
    (hb : ∀ a ∈ tls, a.length ≤ tw) (hne : ∀ a ∈ tls, esc ∉ a) :
    ∀ a ∈ cappedTitleLines tls tw h, a.length ≤ tw ∧ esc ∉ a := by
  rw [cappedTitleLines]
  split
  · exact capTo_bound tls tw _ htw (by split <;> omega) hb hne
  · exact fun a ha => ⟨hb a ha, hne a ha⟩

theorem keptTitleLines_bound (e : Event) (w : Nat) (hw : 5 ≤ w) (ht : esc ∉ e.title) :
    ∀ a ∈ keptTitleLines e w, a.length ≤ w - 4 ∧ esc ∉ a := by
  rw [keptTitleLines]
  exact cappedTitleLines_bound _ _ _ (by omega)
    (wrap_length_le e.title (w - 4)) (wrap_chars_noesc e.title (w - 4) ht)

theorem joinComma_noesc : ∀ (speakers : List (List Char)),
    (∀ s ∈ speakers, esc ∉ s) → esc ∉ joinComma speakers
  | [], _ => by simp [joinComma]
  | [s], h => by simpa [joinComma] using h s (by simp)
  | s :: t :: rest, h => by
    rw [joinComma]
    intro hm
    rcases List.mem_append.1 hm with hm1 | hm1
    · rcases List.mem_append.1 hm1 with hm2 | hm2
      · exact h s (by simp) hm2
      · exact absurd (by simpa using hm2) (by decide)
    · exact joinComma_noesc (t :: rest)
        (fun x hx => h x (List.mem_cons_of_mem s hx)) hm1

theorem speakerText_length_le (speakers : List (List Char)) (tw : Nat) (htw : 5 ≤ tw) :
    (speakerText speakers tw).length ≤ tw - 4 := by
  rw [speakerText]
  split
  · rename_i hgt
    rw [pySliceTo, if_pos (by omega)]
    simp only [List.length_append, List.length_take, List.length_cons, List.length_nil]
    have h1 : min ((tw : Int) - 5).toNat (joinComma speakers).length ≤ ((tw : Int) - 5).toNat :=
      Nat.min_le_left _ _
    omega
  · rename_i hle
    omega

theorem speakerText_noesc (speakers : List (List Char)) (tw : Nat)
    (h : ∀ s ∈ speakers, esc ∉ s) : esc ∉ speakerText speakers tw := by
  rw [speakerText]
  split
  · intro hm
    rcases List.mem_append.1 hm with hm1 | hm1
    · rw [pySliceTo] at hm1
      split at hm1
      · exact joinComma_noesc speakers h (List.mem_of_mem_take hm1)
      · exact joinComma_noesc speakers h (List.mem_of_mem_take hm1)
    · exact absurd (by simpa using hm1) (by decide)
  · exact joinComma_noesc speakers h

theorem card_eq_some (e : Event) (w : Nat) (hw : 8 ≤ w) :
    card e w = some (cardBody e w) := by
  rw [card, if_neg (by omega), if_neg (by push_cast; omega)]

theorem cardBody_length (e : Event) (w : Nat) :
    ((cardBody e w).length : Int) =
      max (cardHeight e) (((keptTitleLines e w).length : Int) + 3) := by
  rw [cardBody]
  simp only [List.length_cons, List.length_append, List.length_map, List.length_replicate,
    List.length_nil]
  omega

theorem headD_mem {α : Type} (l : List α) (d : α) (h : l ≠ []) : l.headD d ∈ l := by
  cases l with
  | nil => exact absurd rfl h
  | cons a t => simp

theorem capTo_one (tls : List (List Char)) (tw : Nat) (hlen : 1 < tls.length) :
    capTo tls tw 1 = [ellipsize (tls.headD []) tw] := by
  rw [capTo, if_pos hlen]
  obtain ⟨a, t, rfl⟩ : ∃ a t, tls = a :: t := by
    cases tls with
    | nil => simp at hlen
    | cons a t => exact ⟨a, t, rfl⟩
  simp [List.getLastD]

/-! ### Claim C1 -/
/-- C1, counterexample: the card generator does not return
`max(0, durationMinutes/5 - 1)` lines for every event.  For a 5-minute
event (interior height 0) at column width 20 it yields 3 lines (top
padding, speaker line, bottom padding), not 0. -/
theorem card_count_ne_interior_height :
    (card evShort 20).map List.length = some 3 ∧
      ¬ ((3 : Int) = max 0 ((5 : Int) / 5 - 1)) := by
  constructor
  · rfl
  · decide

/-- C1, amended: for every event with positive duration and every column
width at which the generator completes (col_width ≥ 8), the card yields
exactly `max(height, L + 3)` lines, where `height = duration/5 - 1` and
`L` is the number of kept title lines — not always the interior height. -/
theorem card_count_eq_max (e : Event) (w : Nat) (hw : 8 ≤ w) (hdur : 0 < e.duration) :
    (card e w).map List.length =
      some (max (cardHeight e) (((keptTitleLines e w).length : Int) + 3)).toNat := by
  rw [card_eq_some e w hw]
  have h := cardBody_length e w
  simp only [Option.map_some']
  congr 1
  omega

/-- Witness for card_count_eq_max at a concrete input. -/
theorem card_count_eq_max_witness :
    (8 ≤ 20 ∧ 0 < evShort.duration) ∧
      (card evShort 20).map List.length =
        some (max (cardHeight evShort)
          (((keptTitleLines evShort 20).length : Int) + 3)).toNat :=
  ⟨⟨by decide, by decide⟩, card_count_eq_max evShort 20 (by decide) (by decide)⟩

/-! ### Claim C9 -/
/-- C9, counterexample: at column width 7 the card generator raises
(the speaker line's format width `text_width - 4 = -1` is invalid), so it
does not yield `max(height, L + 3)` lines for every column width. -/
theorem card_small_width_raises : card evShort 7 = none := rfl

/-- C9, amended: for every event with positive duration and every column
width ≥ 8 (the widths at which the generator completes), the card yields
exactly `max(height, L + 3)` lines where `height = duration/5 - 1` and
`L` is the number of kept title lines; in particular never fewer than
`height` lines and never fewer than 3 lines. -/
theorem card_yield_count (e : Event) (w : Nat) (hw : 8 ≤ w) (hdur : 0 < e.duration) :
    ∃ ls, card e w = some ls ∧
      (ls.length : Int) = max (cardHeight e) (((keptTitleLines e w).length : Int) + 3) ∧
      cardHeight e ≤ (ls.length : Int) ∧ 3 ≤ ls.length := by
  refine ⟨cardBody e w, card_eq_some e w hw, cardBody_length e w, ?_, ?_⟩
  · have h := cardBody_length e w
    omega
  · have h := cardBody_length e w
    omega

/-- Witness for card_yield_count at a concrete input. -/
theorem card_yield_count_witness :
    (8 ≤ 20 ∧ 0 < evLongTitle.duration) ∧
      (∃ ls, card evLongTitle 20 = some ls ∧
        (ls.length : Int) =
          max (cardHeight evLongTitle) (((keptTitleLines evLongTitle 20).length : Int) + 3) ∧
        cardHeight evLongTitle ≤ (ls.length : Int) ∧ 3 ≤ ls.length) :=
  ⟨⟨by decide, by decide⟩, card_yield_count evLongTitle 20 (by decide) (by decide)⟩

/-! ### Claim C5 -/
/-- C5, counterexample: at column width 8 with a 2-character speaker
list, the speaker line is 10 visible characters wide, not 8 — the card's
lines are not all exactly col_width wide for every event and width. -/
theorem card_narrow_width_mismatch :
    (card evSpeakers 8).map (List.map displayLen) = some [8, 10, 8] ∧
      ¬ ((10 : Nat) = 8) := by
  constructor
  · rfl
  · decide

/-- C5, amended: for every column width ≥ 9 and every event whose
language code is at most 2 characters and whose title, speakers and
language contain no escape character, every line the card yields is
exactly col_width visible characters wide (visible width = length after
stripping the inline styling sequences). -/
theorem card_display_width (e : Event) (w : Nat) (hw : 9 ≤ w)
    (hlang : e.language.length ≤ 2)
    (ht : esc ∉ e.title) (hsp : ∀ s ∈ e.speakers, esc ∉ s) (hlg : esc ∉ e.language) :
    ∃ ls, card e w = some ls ∧ ∀ l ∈ ls, displayLen l = w := by
  refine ⟨cardBody e w, card_eq_some e w (by omega), ?_⟩
  intro l hl
  rw [cardBody] at hl
  simp only [List.mem_cons, List.mem_append, List.mem_map, List.mem_replicate] at hl
  rcases hl with hl | ⟨a, ha, rfl⟩ | ⟨hn, hl⟩ | hl | hl | hl
  · subst hl
    exact displayLen_replicate w
  · rcases keptTitleLines_bound e w (by omega) ht a ha with ⟨hlen, hesc⟩
    rw [displayLen_titleLineOut a _ (esc_not_mem_ljust _ _ hesc), ljust_length]
    omega
  · subst hl
    exact displayLen_replicate w
  · subst hl
    rw [displayLen_speakerLineOut _ _ _
      (esc_not_mem_ljust _ _ (speakerText_noesc e.speakers (w - 4) hsp))
      (esc_not_mem_ljust _ _ hlg), ljust_length, ljust_length]
    have hst := speakerText_length_le e.speakers (w - 4) (by omega)
    omega
  · subst hl
    exact displayLen_replicate w
  · exact absurd hl (by simp)

/-- Witness for card_display_width at a concrete input. -/
theorem card_display_width_witness :
    (9 ≤ 20 ∧ evLongTitle.language.length ≤ 2 ∧ esc ∉ evLongTitle.title ∧
        (∀ s ∈ evLongTitle.speakers, esc ∉ s) ∧ esc ∉ evLongTitle.language) ∧
      (∃ ls, card evLongTitle 20 = some ls ∧ ∀ l ∈ ls, displayLen l = 20) :=
  ⟨⟨by decide, by decide, by decide, by decide, by decide⟩,
    card_display_width evLongTitle 20 (by decide) (by decide) (by decide)
      (by decide) (by decide)⟩

/-! ### Claim C6 -/
/-- C6: when the title wraps to more than one line, the interior height
is at most 5 (so the cap is one title line), and the width is at least
the minimum at which wrapping is defined, the card keeps exactly one
title line; it ends in an ellipsis, is at most text_width characters and
exactly text_width once padded, the ellipsis replaces the final
character iff the kept line already filled text_width (else it is
appended), and (whenever the generator completes, col_width ≥ 8) that
line is the card's second yielded line. -/
theorem card_title_truncation (e : Event) (w : Nat) (hw : 5 ≤ w)
    (hdur : 0 < e.duration) (hh : cardHeight e ≤ 5)
    (hwrap : 1 < (wrap e.title (w - 4)).length) :
    ∃ l, keptTitleLines e w = [l] ∧
      l.getLast? = some '…' ∧
      l.length ≤ w - 4 ∧ (ljust l (w - 4)).length = w - 4 ∧
      (((wrap e.title (w - 4)).headD []).length = w - 4 →
        l = ((wrap e.title (w - 4)).headD []).take (w - 4 - 1) ++ ['…']) ∧
      (((wrap e.title (w - 4)).headD []).length ≠ w - 4 →
        l = (wrap e.title (w - 4)).headD [] ++ ['…']) ∧
      (8 ≤ w → ∃ ls, card e w = some ls ∧ ls[1]? = some (titleLineOut l (w - 4))) := by
  have hcap : keptTitleLines e w =
      [ellipsize ((wrap e.title (w - 4)).headD []) (w - 4)] := by
    rw [keptTitleLines, cappedTitleLines, if_pos (show cardHeight e ≤ 11 by omega),
      if_pos hh]
    exact capTo_one _ _ hwrap
  have hmem : (wrap e.title (w - 4)).headD [] ∈ wrap e.title (w - 4) :=
    headD_mem _ [] (by intro h2; rw [h2] at hwrap; simp at hwrap)
  have hbound := wrap_length_le e.title (w - 4) _ hmem
  refine ⟨ellipsize ((wrap e.title (w - 4)).headD []) (w - 4), hcap,
    ellipsize_getLast _ _, ellipsize_length_le _ _ (by omega) hbound, ?_, ?_, ?_, ?_⟩
  · rw [ljust_length]
    have := ellipsize_length_le ((wrap e.title (w - 4)).headD []) (w - 4)
      (by omega) hbound
    omega
  · intro heq
    rw [ellipsize, if_pos heq]
  · intro hne
    rw [ellipsize, if_neg hne]
  · intro hw8
    refine ⟨cardBody e w, card_eq_some e w hw8, ?_⟩
    rw [cardBody]
    simp only [hcap, List.map_cons, List.map_nil, List.cons_append, List.nil_append]
    simp

/-- Witness for card_title_truncation at a concrete input. -/
theorem card_title_truncation_witness :
    (5 ≤ 20 ∧ 0 < evLongTitle.duration ∧ cardHeight evLongTitle ≤ 5 ∧
        1 < (wrap evLongTitle.title (20 - 4)).length) ∧
      (∃ l, keptTitleLines evLongTitle 20 = [l] ∧
        l.getLast? = some '…' ∧
        l.length ≤ 20 - 4 ∧ (ljust l (20 - 4)).length = 20 - 4 ∧
        (((wrap evLongTitle.title (20 - 4)).headD []).length = 20 - 4 →
          l = ((wrap evLongTitle.title (20 - 4)).headD []).take (20 - 4 - 1) ++ ['…']) ∧
        (((wrap evLongTitle.title (20 - 4)).headD []).length ≠ 20 - 4 →
          l = (wrap evLongTitle.title (20 - 4)).headD [] ++ ['…']) ∧
        (8 ≤ 20 → ∃ ls, card evLongTitle 20 = some ls ∧
          ls[1]? = some (titleLineOut l (20 - 4)))) :=
  ⟨⟨by decide, by decide, by decide, by decide⟩,
    card_title_truncation evLongTitle 20 (by decide) (by decide) (by decide) (by decide)⟩

/-! ### Claim C3 -/
/-- C3: for every one of the 15 boolean 4-tuples with at least one true
component, get_seperator yields exactly one defined glyph (no lookup
miss), and the glyph agrees with the spec's junction table. -/
theorem get_seperator_total_agrees (a b c d : Bool)
    (h : a = true ∨ b = true ∨ c = true ∨ d = true) :
    get_seperator a b c d = some (specJunction a b c d) := by
  have h2 : ∀ a b c d : Bool, (a = true ∨ b = true ∨ c = true ∨ d = true) →
      get_seperator a b c d = some (specJunction a b c d) := by decide
  exact h2 a b c d h

/-- Witness for get_seperator_total_agrees at a concrete tuple. -/
theorem get_seperator_total_agrees_witness :
    (true = true ∨ false = true ∨ false = true ∨ false = true) ∧
      get_seperator true false false false = some (specJunction true false false false) :=
  ⟨Or.inl rfl, get_seperator_total_agrees true false false false (Or.inl rfl)⟩

/-! ### Claim C7 -/
/-- C7: for the empty event list, render returns exactly the fixed
sentinel text, independent of the column width and the snapshot's
location list, and does not fail. -/
theorem timetable_empty_sentinel (allLocs : List String) (w : Nat) :
    timetable allLocs [] w = some noEventsMsg := rfl

/-! ### Claim C4 -/
/-- C4, counterexample: for two locations with simultaneous events
10:00-10:30, the inter-column junction at row 10:00 (line 1, column 29
of the rendered grid at column width 20) is '┬' — not '├' and not '┤'. -/
theorem simultaneous_junction_not_tee :
    (((timetableLines ["L1", "L2"] [evA, evB] 20).bind (fun L => L[1]?)).bind
        (fun r => r[29]?)) = some '┬' ∧
      ¬ ('┬' = '├' ∨ '┬' = '┤') := by
  constructor
  · rfl
  · decide

/-- C4, amended: in that scenario the inter-column junction at row 10:00
is '┬' (the (F,T,T,F) table entry) and at row 10:30 it is '┴' (the
(T,F,F,T) entry) — resolved through the junction table, not a plain
vertical bar. -/
theorem simultaneous_junction_glyphs :
    (((timetableLines ["L1", "L2"] [evA, evB] 20).bind (fun L => L[1]?)).bind
        (fun r => r[29]?)) = some '┬' ∧
      (((timetableLines ["L1", "L2"] [evA, evB] 20).bind (fun L => L[7]?)).bind
        (fun r => r[29]?)) = some '┴' ∧
      get_seperator false true true false = some '┬' ∧
      get_seperator true false false true = some '┴' ∧
      ¬ ('┬' = UD) ∧ ¬ ('┴' = UD) := by
  refine ⟨rfl, rfl, rfl, rfl, by decide, by decide⟩

/-! ### Claim C2, counterexample -/
/-- C2, counterexample: for the single 26-minute event evOdd (end >
start, trivially non-overlapping), timetable raises: the five interior
rows ask the event's card generator for five lines but it yields only
four, and the sixth next() call propagates StopIteration.  So render
does not terminate with 1 + rowCount lines on every such input. -/
theorem timetable_exhaustion_crash :
    timetable ["L1"] [evOdd] 20 = none ∧ 0 < evOdd.duration := by
  constructor
  · rfl
  · decide

/-! ### Claim C8 -/
/-- C8: a refresh cycle whose fetch fails (non-success status, ≥ 300)
leaves the store's snapshot (locations and events) and the last-update
timestamp unchanged: update returns the pre-fetch state itself. -/
theorem update_failure_keeps_snapshot (st : StoreState) (now : Int) (resp : Response)
    (h : 300 ≤ resp.status) :
    update st now resp = some st := by
  rw [update, if_neg (by omega)]

/-- Witness for update_failure_keeps_snapshot at a concrete input. -/
theorem update_failure_keeps_snapshot_witness :
    300 ≤ failResponse.status ∧ update sampleStore 0 failResponse = some sampleStore :=
  ⟨by decide, update_failure_keeps_snapshot sampleStore 0 failResponse (by decide)⟩

/-! ### Claim C10 -/
theorem get_seperator_isSome_of (a b c d : Bool) (h : (a || b || c || d) = true) :
    (get_seperator a b c d).isSome = true := by
  have h2 : ∀ a b c d : Bool, (a || b || c || d) = true →
      (get_seperator a b c d).isSome = true := by decide
  exact h2 a b c d h

theorem pairSep_isSome (fill : Char) (s1 r1 e1 s2 r2 e2 : Bool) :
    (pairSep fill s1 r1 e1 s2 r2 e2).isSome = true := by
  rw [pairSep]
  split
  · rfl
  · split
    · rfl
    · split
      · rename_i h1 h2 h3
        exact get_seperator_isSome_of e2 s2 s1 e1 h3
      · split
        · rfl
        · rfl

theorem lastEdge_isSome (fill : Char) (ebl : String → List Event) (t : Int)
    (loc : String) : lastEdge fill ebl t loc ≠ none := by
  rw [lastEdge]
  split
  · rename_i h
    intro hc
    have h2 := get_seperator_isSome_of false false (findStart (ebl loc) t).isSome
      (findStop (ebl loc) t).isSome (by simpa using h)
    rw [hc] at h2
    simp at h2
  · split <;> simp

/-- C10: every call the layout engine makes to the junction-glyph
function passes at least one true argument, so the lookup never misses:
the table is total on such tuples, the first-column and last-column
corner calls are guarded by a start/end boundary, the inter-column table
lookup is guarded by a boundary bit, and a row-construction step can
only fail through card-cursor exhaustion (popCard), never through a
junction lookup. -/
theorem junction_calls_always_hit :
    (∀ a b c d : Bool, (a = true ∨ b = true ∨ c = true ∨ d = true) →
        (get_seperator a b c d).isSome = true) ∧
      (∀ (w : Nat) (fill : Char) (ebl : String → List Event) (t : Int)
          (cards : CardMap) (loc : String), firstCell w fill ebl t cards loc = none →
        ∃ ev, findRun (ebl loc) t = some ev ∧ popCard cards ev.id = none) ∧
      (∀ (w : Nat) (fill : Char) (ebl : String → List Event) (t : Int)
          (cards : CardMap) (loc1 loc2 : String),
          pairStep w fill ebl t cards loc1 loc2 = none →
        ∃ ev, findRun (ebl loc2) t = some ev ∧ popCard cards ev.id = none) ∧
      (∀ (fill : Char) (ebl : String → List Event) (t : Int) (loc : String),
        lastEdge fill ebl t loc ≠ none) := by
  refine ⟨?_, ?_, ?_, ?_⟩
  · intro a b c d h
    apply get_seperator_isSome_of
    rcases h with h | h | h | h <;> subst h <;> simp
  · intro w fill ebl t cards loc h
    rw [firstCell] at h
    split at h
    · rename_i hguard
      exfalso
      rw [Option.map_eq_none'] at h
      have h2 := get_seperator_isSome_of (findStop (ebl loc) t).isSome
        (findStart (ebl loc) t).isSome false false
        (by revert hguard
            cases (findStop (ebl loc) t).isSome <;> cases (findStart (ebl loc) t).isSome <;> simp)
      rw [h] at h2
      simp at h2
    · split at h
      · rename_i ev heq
        rw [Option.map_eq_none'] at h
        exact ⟨ev, heq, h⟩
      · simp at h
  · intro w fill ebl t cards loc1 loc2 h
    rw [pairStep] at h
    obtain ⟨sc, hsc⟩ := Option.isSome_iff_exists.1 (pairSep_isSome fill
      (findStart (ebl loc1) t).isSome (findRun (ebl loc1) t).isSome
      (findStop (ebl loc1) t).isSome (findStart (ebl loc2) t).isSome
      (findRun (ebl loc2) t).isSome (findStop (ebl loc2) t).isSome)
    rw [hsc, Option.some_bind] at h
    split at h
    · rename_i ev heq
      rw [Option.map_eq_none'] at h
      exact ⟨ev, heq, h⟩
    · split at h <;> simp at h
  · exact lastEdge_isSome

/-- Witness for junction_calls_always_hit at a concrete tuple. -/
theorem junction_calls_always_hit_witness :
    (false = true ∨ true = true ∨ false = true ∨ false = true) ∧
      (get_seperator false true false false).isSome = true :=
  ⟨Or.inr (Or.inl rfl),
    junction_calls_always_hit.1 false true false false (Or.inr (Or.inl rfl))⟩

theorem getCard_setCard_same : ∀ (m : CardMap) (i : Nat) (v : List (List Char)),
    getCard (setCard m i v) i = some v := by
  intro m
  induction m with
  | nil => intro i v; simp [setCard, getCard]
  | cons kv rest ih =>
    intro i v
    obtain ⟨k, u⟩ := kv
    rw [setCard]
    split
    · simp [getCard]
    · rename_i h
      rw [getCard, if_neg h]
      exact ih i v

theorem getCard_setCard_other : ∀ (m : CardMap) (i j : Nat) (v : List (List Char)),
    i ≠ j → getCard (setCard m i v) j = getCard m j := by
  intro m
  induction m with
  | nil => intro i j v hij; simp [setCard, getCard]; exact hij
  | cons kv rest ih =>
    intro i j v hij
    obtain ⟨k, u⟩ := kv
    rw [setCard]
    split
    · rename_i h
      subst h
      rw [getCard, if_neg hij, getCard, if_neg hij]
    · rw [getCard, getCard]
      split
      · rfl
      · exact ih i j v hij

theorem popCard_of_getCard (m : CardMap) (i : Nat) (l : List Char)
    (rest : List (List Char)) (h : getCard m i = some (l :: rest)) :
    popCard m i = some (l, setCard m i rest) := by
  rw [popCard, h]

theorem buildCards_go (w : Nat) (hw : 8 ≤ w) :
    ∀ (evs : List Event) (m0 : CardMap),
      ∃ m, (List.foldlM (fun m e => (card e w).map (fun ls => setCard m e.id ls)) m0 evs :
              Option CardMap) = some m ∧
        (∀ i, i ∉ evs.map (fun e => e.id) → getCard m i = getCard m0 i) ∧
        ((evs.map (fun e => e.id)).Nodup →
          ∀ e ∈ evs, getCard m e.id = some (cardBody e w)) := by
  intro evs
  induction evs with
  | nil =>
    intro m0
    exact ⟨m0, by simp [List.foldlM], fun i _ => rfl, fun _ e he => absurd he (by simp)⟩
  | cons e rest ih =>
    intro m0
    obtain ⟨m, hm, hother, hnod⟩ := ih (setCard m0 e.id (cardBody e w))
    refine ⟨m, ?_, ?_, ?_⟩
    · rw [List.foldlM_cons, card_eq_some e w hw]
      simpa using hm
    · intro i hi
      have hi1 : i ∉ rest.map (fun e => e.id) := fun h => hi (by simp at h ⊢; tauto)
      have hi2 : i ≠ e.id := fun h => hi (by simp [h])
      rw [hother i hi1, getCard_setCard_other _ _ _ _ (Ne.symm hi2)]
    · intro hnodup f hf
      rw [List.map_cons, List.nodup_cons] at hnodup
      rcases List.mem_cons.1 hf with rfl | hm2
      · rw [hother f.id hnodup.1, getCard_setCard_same]
      · exact hnod hnodup.2 f hm2

theorem buildCards_ok (events : List Event) (w : Nat) (hw : 8 ≤ w)
    (hids : (events.map (fun e => e.id)).Nodup) :
    ∃ m, buildCards events w = some m ∧
      ∀ e ∈ events, getCard m e.id = some (cardBody e w) := by
  obtain ⟨m, hm, _, hnod⟩ := buildCards_go w hw events []
  exact ⟨m, hm, hnod hids⟩

theorem find?_eq_some_of_unique {α : Type} (p : α → Bool) (l : List α) (a : α)
    (ha : a ∈ l) (hpa : p a = true) (huniq : ∀ b ∈ l, p b = true → b = a) :
    l.find? p = some a := by
  induction l with
  | nil => simp at ha
  | cons c rest ih =>
    cases hpc : p c
    · rw [List.find?_cons_of_neg _ (by simp [hpc])]
      rcases List.mem_cons.1 ha with rfl | hm
      · rw [hpa] at hpc; cases hpc
      · exact ih hm (fun b hb hpb => huniq b (List.mem_cons_of_mem c hb) hpb)
    · rw [List.find?_cons_of_pos _ hpc]
      rw [huniq c (List.mem_cons_self c rest) hpc]

theorem mem_eventsAt (events : List Event) (loc : String) (e : Event) :
    e ∈ eventsAt events loc ↔ e ∈ events ∧ e.location = loc := by
  simp [eventsAt, List.mem_filter]

theorem is_running_at_iff (e : Event) (t : Int) :
    e.is_running_at t = true ↔ (e.start < t ∧ t < e.stop) := by
  simp [Event.is_running_at]

theorem run_unique (events : List Event) (t : Int)
    (hdur : ∀ e ∈ events, 0 < e.duration) (hnov : NonOverlapping events)
    (e f : Event) (he : e ∈ events) (hf : f ∈ events) (hlocs : e.location = f.location)
    (her : e.is_running_at t = true) (hfr : f.is_running_at t = true) : e = f := by
  by_contra hne
  rw [is_running_at_iff] at her hfr
  rcases hnov e he f hf hne hlocs with h | h <;> omega

theorem findRun_eq_some (events : List Event) (t : Int) (loc : String)
    (hdur : ∀ e ∈ events, 0 < e.duration) (hnov : NonOverlapping events)
    (e : Event) (he : e ∈ events) (hloc : e.location = loc)
    (hrun : e.is_running_at t = true) :
    findRun (eventsAt events loc) t = some e := by
  refine find?_eq_some_of_unique _ _ e ((mem_eventsAt events loc e).2 ⟨he, hloc⟩) hrun ?_
  intro f hf hpf
  rw [mem_eventsAt] at hf
  exact run_unique events t hdur hnov f e hf.1 he (hf.2.trans hloc.symm) hpf hrun

theorem findRun_spec (events : List Event) (t : Int) (loc : String) (e : Event)
    (h : findRun (eventsAt events loc) t = some e) :
    e ∈ events ∧ e.location = loc ∧ e.is_running_at t = true := by
  have h1 := List.mem_of_find?_eq_some h
  have h2 := List.find?_some h
  rw [mem_eventsAt] at h1
  exact ⟨h1.1, h1.2, h2⟩

theorem findRun_eq_none_of_start (events : List Event) (t : Int) (loc : String)
    (hdur : ∀ e ∈ events, 0 < e.duration) (hnov : NonOverlapping events)
    (f : Event) (hf : findStart (eventsAt events loc) t = some f) :
    findRun (eventsAt events loc) t = none := by
  cases heq : findRun (eventsAt events loc) t with
  | none => rfl
  | some e =>
    exfalso
    obtain ⟨he, heloc, her⟩ := findRun_spec events t loc e heq
    have hf1 := List.mem_of_find?_eq_some hf
    have hf2 : f.start = t := by simpa using List.find?_some hf
    rw [mem_eventsAt] at hf1
    rw [is_running_at_iff] at her
    have hne : e ≠ f := by
      intro h
      subst h
      omega
    have hfd := hdur f hf1.1
    rcases hnov e he f hf1.1 hne (heloc.trans hf1.2.symm) with h | h
    · omega
    · have : f.start < f.stop := by rw [Event.stop]; omega
      omega

theorem findRun_eq_none_of_stop (events : List Event) (t : Int) (loc : String)
    (hdur : ∀ e ∈ events, 0 < e.duration) (hnov : NonOverlapping events)
    (f : Event) (hf : findStop (eventsAt events loc) t = some f) :
    findRun (eventsAt events loc) t = none := by
  cases heq : findRun (eventsAt events loc) t with
  | none => rfl
  | some e =>
    exfalso
    obtain ⟨he, heloc, her⟩ := findRun_spec events t loc e heq
    have hf1 := List.mem_of_find?_eq_some hf
    have hf2 : f.stop = t := by simpa using List.find?_some hf
    rw [mem_eventsAt] at hf1
    rw [is_running_at_iff] at her
    have hne : e ≠ f := by
      intro h
      subst h
      omega
    have hfd := hdur f hf1.1
    have hfss : f.start < f.stop := by rw [Event.stop]; omega
    rcases hnov e he f hf1.1 hne (heloc.trans hf1.2.symm) with h | h <;> omega

theorem runCount_cons (e : Event) (t : Int) (ts : List Int) :
    runCount e (t :: ts) =
      (if e.is_running_at t = true then 1 else 0) + runCount e ts := by
  rw [runCount, runCount, List.filter_cons]
  split
  · simp [Nat.add_comm]
  · simp

theorem length_filter_range_interval : ∀ (n p q : Nat),
    ((List.range n).filter (fun i => decide (p < i ∧ i < p + q))).length =
      min (n - (p + 1)) (q - 1) := by
  intro n
  induction n with
  | zero => intro p q; simp
  | succ m ih =>
    intro p q
    rw [List.range_succ, List.filter_append, List.length_append, ih]
    by_cases hc : p < m ∧ m < p + q
    · rw [List.filter_cons, if_pos (by simpa using hc)]
      simp only [List.filter_nil, List.length_cons, List.length_nil]
      omega
    · rw [List.filter_cons, if_neg (by simpa using hc)]
      simp only [List.filter_nil, List.length_nil]
      omega

theorem rowTimes_aligned (gs ge : Int) (h5 : (5 : Int) ∣ gs) (hle : ¬ (ge < gs)) :
    rowTimes gs ge =
      (List.range (((ge - gs) / 5).toNat + 1)).map (fun i : Nat => gs + 5 * (i : Int)) := by
  rw [rowTimes]
  have h1 : gs + (5 - gs % 5) % 5 = gs := by omega
  simp only [h1]
  rw [if_neg hle]

theorem rowTimes_length (gs ge : Int) (h5 : (5 : Int) ∣ gs) (hle : ¬ (ge < gs)) :
    (rowTimes gs ge).length = ((ge - gs) / 5).toNat + 1 := by
  rw [rowTimes_aligned gs ge h5 hle, List.length_map, List.length_range]

theorem foldl_min_le (l : List Event) : ∀ (a : Int),
    l.foldl (fun x f => min x f.start) a ≤ a ∧
      ∀ e ∈ l, l.foldl (fun x f => min x f.start) a ≤ e.start := by
  induction l with
  | nil => intro a; exact ⟨le_rfl, by simp⟩
  | cons f rest ih =>
    intro a
    rw [List.foldl_cons]
    obtain ⟨h1, h2⟩ := ih (min a f.start)
    refine ⟨le_trans h1 (min_le_left _ _), ?_⟩
    intro e he
    rcases List.mem_cons.1 he with rfl | hm
    · exact le_trans h1 (min_le_right _ _)
    · exact h2 e hm

theorem globalStart_le (events : List Event) (e : Event) (he : e ∈ events) :
    globalStart events ≤ e.start := by
  cases events with
  | nil => simp at he
  | cons f rest =>
    rw [globalStart]
    rcases List.mem_cons.1 he with rfl | hm
    · exact (foldl_min_le rest e.start).1
    · exact (foldl_min_le rest f.start).2 e hm

theorem foldl_min_mem (l : List Event) : ∀ (a : Int),
    l.foldl (fun x f => min x f.start) a = a ∨
      ∃ e ∈ l, l.foldl (fun x f => min x f.start) a = e.start := by
  induction l with
  | nil => intro a; exact Or.inl rfl
  | cons f rest ih =>
    intro a
    rw [List.foldl_cons]
    rcases ih (min a f.start) with h | ⟨e, he, h⟩
    · rcases le_total a f.start with hle | hle
      · left; rw [h, min_eq_left hle]
      · right; exact ⟨f, by simp, by rw [h, min_eq_right hle]⟩
    · right; exact ⟨e, List.mem_cons_of_mem f he, h⟩

theorem globalStart_dvd (events : List Event)
    (h5 : ∀ e ∈ events, (5 : Int) ∣ e.start) (hne : events ≠ []) :
    (5 : Int) ∣ globalStart events := by
  cases events with
  | nil => exact absurd rfl hne
  | cons f rest =>
    rw [globalStart]
    rcases foldl_min_mem rest f.start with h | ⟨e, he, h⟩
    · rw [h]; exact h5 f (by simp)
    · rw [h]; exact h5 e (List.mem_cons_of_mem f he)

theorem foldl_max_le (l : List Event) : ∀ (a : Int),
    a ≤ l.foldl (fun x f => max x f.stop) a ∧
      ∀ e ∈ l, e.stop ≤ l.foldl (fun x f => max x f.stop) a := by
  induction l with
  | nil => intro a; exact ⟨le_rfl, by simp⟩
  | cons f rest ih =>
    intro a
    rw [List.foldl_cons]
    obtain ⟨h1, h2⟩ := ih (max a f.stop)
    refine ⟨le_trans (le_max_left _ _) h1, ?_⟩
    intro e he
    rcases List.mem_cons.1 he with rfl | hm
    · exact le_trans (le_max_right _ _) h1
    · exact h2 e hm

theorem le_globalEnd (events : List Event) (e : Event) (he : e ∈ events) :
    e.stop ≤ globalEnd events := by
  cases events with
  | nil => simp at he
  | cons f rest =>
    rw [globalEnd]
    rcases List.mem_cons.1 he with rfl | hm
    · exact (foldl_max_le rest e.stop).1
    · exact (foldl_max_le rest f.stop).2 e hm

theorem foldl_max_mem (l : List Event) : ∀ (a : Int),
    l.foldl (fun x f => max x f.stop) a = a ∨
      ∃ e ∈ l, l.foldl (fun x f => max x f.stop) a = e.stop := by
  induction l with
  | nil => intro a; exact Or.inl rfl
  | cons f rest ih =>
    intro a
    rw [List.foldl_cons]
    rcases ih (max a f.stop) with h | ⟨e, he, h⟩
    · rcases le_total a f.stop with hle | hle
      · right; exact ⟨f, by simp, by rw [h, max_eq_right hle]⟩
      · left; rw [h, max_eq_left hle]
    · right; exact ⟨e, List.mem_cons_of_mem f he, h⟩

theorem globalEnd_dvd (events : List Event)
    (h5 : ∀ e ∈ events, (5 : Int) ∣ e.stop) (hne : events ≠ []) :
    (5 : Int) ∣ globalEnd events := by
  cases events with
  | nil => exact absurd rfl hne
  | cons f rest =>
    rw [globalEnd]
    rcases foldl_max_mem rest f.stop with h | ⟨e, he, h⟩
    · rw [h]; exact h5 f (by simp)
    · rw [h]; exact h5 e (List.mem_cons_of_mem f he)

theorem visibleLocations_nodup (allLocs : List String) (events : List Event)
    (h : allLocs.Nodup) : (visibleLocations allLocs events).Nodup :=
  h.filter _

theorem visibleLocations_ne_nil (allLocs : List String) (events : List Event)
    (e : Event) (he : e ∈ events) (hloc : e.location ∈ allLocs) :
    visibleLocations allLocs events ≠ [] := by
  intro h
  have hmem : e.location ∈ visibleLocations allLocs events := by
    rw [visibleLocations, List.mem_filter]
    refine ⟨hloc, ?_⟩
    rw [List.any_eq_true]
    exact ⟨e, he, by simp⟩
  rw [h] at hmem
  simp at hmem

theorem length_filter_map_eq {α β : Type} (f : α → β) (pb : β → Bool) (pa : α → Bool) :
    ∀ (l : List α), (∀ x ∈ l, pb (f x) = pa x) →
      ((l.map f).filter pb).length = (l.filter pa).length := by
  intro l
  induction l with
  | nil => intro h; simp
  | cons a t ih =>
    intro h
    rw [List.map_cons, List.filter_cons, List.filter_cons]
    have ha := h a (List.mem_cons_self a t)
    rw [ha]
    have ht := ih (fun x hx => h x (List.mem_cons_of_mem a hx))
    split
    · simp only [List.length_cons, ht]
    · exact ht

theorem runCount_rowTimes_le (e : Event) (gs ge : Int) (w : Nat)
    (hgs5 : (5 : Int) ∣ gs) (hs5 : (5 : Int) ∣ e.start)
    (hd5 : (5 : Int) ∣ (e.duration : Int)) (hdur : 0 < e.duration)
    (hgs : gs ≤ e.start) (hge : e.stop ≤ ge) :
    runCount e (rowTimes gs ge) ≤ (cardBody e w).length := by
  have hss : e.start < e.stop := by rw [Event.stop]; omega
  have hle : ¬ (ge < gs) := by rw [Event.stop] at hge; omega
  rw [runCount, rowTimes_aligned gs ge hgs5 hle]
  rw [length_filter_map_eq (fun i : Nat => gs + 5 * (i : Int))
    (fun t => e.is_running_at t)
    (fun i => decide (((e.start - gs) / 5).toNat < i ∧
      i < ((e.start - gs) / 5).toNat + e.duration / 5))
    (List.range (((ge - gs) / 5).toNat + 1)) ?hpt]
  case hpt =>
    intro i _
    simp only [Event.is_running_at, ← Bool.decide_and, decide_eq_decide, Event.stop]
    omega
  rw [length_filter_range_interval]
  have hlen := cardBody_length e w
  have hch : cardHeight e = (e.duration / 5 : Nat) - 1 := rfl
  rw [Event.stop] at hge
  omega

theorem firstCell_ok (events : List Event) (w : Nat) (fill : Char) (t : Int)
    (cards : CardMap) (loc : String)
    (hdur : ∀ e ∈ events, 0 < e.duration) (hnov : NonOverlapping events)
    (hinj : ∀ e ∈ events, ∀ f ∈ events, e.id = f.id → e = f)
    (hpre : ∀ e ∈ events, ∃ ls, getCard cards e.id = some ls ∧
      (e.is_running_at t = true → e.location = loc → ls ≠ [])) :
    ∃ out cards1, firstCell w fill (eventsAt events) t cards loc = some (out, cards1) ∧
      ∀ e ∈ events, ∃ ls, getCard cards e.id = some ls ∧
        getCard cards1 e.id =
          some (if e.is_running_at t = true ∧ e.location = loc then ls.tail else ls) := by
  simp only [firstCell]
  by_cases hguard : ((findStart (eventsAt events loc) t).isSome ||
      (findStop (eventsAt events loc) t).isSome) = true
  · rw [if_pos hguard]
    have hsome := get_seperator_isSome_of (findStop (eventsAt events loc) t).isSome
      (findStart (eventsAt events loc) t).isSome false false
      (by revert hguard
          cases (findStop (eventsAt events loc) t).isSome <;>
            cases (findStart (eventsAt events loc) t).isSome <;> simp)
    obtain ⟨ch, hch⟩ := Option.isSome_iff_exists.1 hsome
    rw [hch]
    refine ⟨ch :: List.replicate w LR, cards, rfl, ?_⟩
    have hnorun : findRun (eventsAt events loc) t = none := by
      rcases Bool.or_eq_true_iff.1 hguard with h | h
      · obtain ⟨f, hf⟩ := Option.isSome_iff_exists.1 h
        exact findRun_eq_none_of_start events t loc hdur hnov f hf
      · obtain ⟨f, hf⟩ := Option.isSome_iff_exists.1 h
        exact findRun_eq_none_of_stop events t loc hdur hnov f hf
    intro e he
    obtain ⟨ls, hls, _⟩ := hpre e he
    refine ⟨ls, hls, ?_⟩
    rw [hls, if_neg]
    rintro ⟨hrun, hloc⟩
    rw [findRun_eq_some events t loc hdur hnov e he hloc hrun] at hnorun
    cases hnorun
  · rw [if_neg hguard]
    cases hr : findRun (eventsAt events loc) t with
    | none =>
      refine ⟨List.replicate (w + 1) fill, cards, rfl, ?_⟩
      intro e he
      obtain ⟨ls, hls, _⟩ := hpre e he
      refine ⟨ls, hls, ?_⟩
      rw [hls, if_neg]
      rintro ⟨hrun, hloc⟩
      rw [findRun_eq_some events t loc hdur hnov e he hloc hrun] at hr
      cases hr
    | some ev =>
      obtain ⟨hev, hevloc, hevrun⟩ := findRun_spec events t loc ev hr
      obtain ⟨ls, hls, hne⟩ := hpre ev hev
      obtain ⟨l, rest, rfl⟩ : ∃ l rest, ls = l :: rest := by
        cases ls with
        | nil => exact absurd rfl (hne hevrun hevloc)
        | cons l rest => exact ⟨l, rest, rfl⟩
      refine ⟨UD :: l, setCard cards ev.id rest, ?_, ?_⟩
      · show (popCard cards ev.id).map (fun p => (UD :: p.1, p.2)) =
          some (UD :: l, setCard cards ev.id rest)
        rw [popCard_of_getCard cards ev.id l rest hls]
        rfl
      · intro e he
        by_cases heq : e = ev
        · subst heq
          refine ⟨l :: rest, hls, ?_⟩
          rw [getCard_setCard_same, if_pos ⟨hevrun, hevloc⟩]
          rfl
        · obtain ⟨ls2, hls2, _⟩ := hpre e he
          have hid : e.id ≠ ev.id := fun h => heq (hinj e he ev hev h)
          refine ⟨ls2, hls2, ?_⟩
          rw [getCard_setCard_other _ _ _ _ (Ne.symm hid), hls2, if_neg]
          rintro ⟨hrun, hloc⟩
          refine heq ?_
          have h2 := findRun_eq_some events t loc hdur hnov e he hloc hrun
          rw [hr] at h2
          injection h2 with h3
          exact h3.symm

theorem pairStep_ok (events : List Event) (w : Nat) (fill : Char) (t : Int)
    (cards : CardMap) (loc1 loc2 : String)
    (hdur : ∀ e ∈ events, 0 < e.duration) (hnov : NonOverlapping events)
    (hinj : ∀ e ∈ events, ∀ f ∈ events, e.id = f.id → e = f)
    (hpre : ∀ e ∈ events, ∃ ls, getCard cards e.id = some ls ∧
      (e.is_running_at t = true → e.location = loc2 → ls ≠ [])) :
    ∃ out cards1, pairStep w fill (eventsAt events) t cards loc1 loc2 = some (out, cards1) ∧
      ∀ e ∈ events, ∃ ls, getCard cards e.id = some ls ∧
        getCard cards1 e.id =
          some (if e.is_running_at t = true ∧ e.location = loc2 then ls.tail else ls) := by
  simp only [pairStep]
  obtain ⟨sc, hsc⟩ := Option.isSome_iff_exists.1 (pairSep_isSome fill
    (findStart (eventsAt events loc1) t).isSome (findRun (eventsAt events loc1) t).isSome
    (findStop (eventsAt events loc1) t).isSome (findStart (eventsAt events loc2) t).isSome
    (findRun (eventsAt events loc2) t).isSome (findStop (eventsAt events loc2) t).isSome)
  rw [hsc]
  simp only [Option.some_bind]
  cases hr : findRun (eventsAt events loc2) t with
  | none =>
    have hpost : ∀ e ∈ events, ∃ ls, getCard cards e.id = some ls ∧
        getCard cards e.id =
          some (if e.is_running_at t = true ∧ e.location = loc2 then ls.tail else ls) := by
      intro e he
      obtain ⟨ls, hls, _⟩ := hpre e he
      refine ⟨ls, hls, ?_⟩
      rw [hls, if_neg]
      rintro ⟨hrun, hloc⟩
      rw [findRun_eq_some events t loc2 hdur hnov e he hloc hrun] at hr
      cases hr
    refine ⟨(if ((findStart (eventsAt events loc2) t).isSome ||
        (findStop (eventsAt events loc2) t).isSome) = true
        then sc :: List.replicate w LR else sc :: List.replicate w fill),
      cards, ?_, hpost⟩
    show (if ((findStart (eventsAt events loc2) t).isSome ||
        (findStop (eventsAt events loc2) t).isSome) = true
        then (some (sc :: List.replicate w LR, cards) : Option (List Char × CardMap))
        else some (sc :: List.replicate w fill, cards)) =
      some ((if ((findStart (eventsAt events loc2) t).isSome ||
        (findStop (eventsAt events loc2) t).isSome) = true
        then sc :: List.replicate w LR else sc :: List.replicate w fill), cards)
    split <;> rfl
  | some ev =>
    obtain ⟨hev, hevloc, hevrun⟩ := findRun_spec events t loc2 ev hr
    obtain ⟨ls, hls, hne⟩ := hpre ev hev
    obtain ⟨l, rest, rfl⟩ : ∃ l rest, ls = l :: rest := by
      cases ls with
      | nil => exact absurd rfl (hne hevrun hevloc)
      | cons l rest => exact ⟨l, rest, rfl⟩
    refine ⟨sc :: l, setCard cards ev.id rest, ?_, ?_⟩
    · show (popCard cards ev.id).map (fun p => (sc :: p.1, p.2)) =
        some (sc :: l, setCard cards ev.id rest)
      rw [popCard_of_getCard cards ev.id l rest hls]
      rfl
    · intro e he
      by_cases heq : e = ev
      · subst heq
        refine ⟨l :: rest, hls, ?_⟩
        rw [getCard_setCard_same, if_pos ⟨hevrun, hevloc⟩]
        rfl
      · obtain ⟨ls2, hls2, _⟩ := hpre e he
        have hid : e.id ≠ ev.id := fun h => heq (hinj e he ev hev h)
        refine ⟨ls2, hls2, ?_⟩
        rw [getCard_setCard_other _ _ _ _ (Ne.symm hid), hls2, if_neg]
        rintro ⟨hrun, hloc⟩
        refine heq ?_
        have h2 := findRun_eq_some events t loc2 hdur hnov e he hloc hrun
        rw [hr] at h2
        injection h2 with h3
        exact h3.symm

theorem pairsLoop_ok (events : List Event) (w : Nat) (fill : Char) (t : Int)
    (hdur : ∀ e ∈ events, 0 < e.duration) (hnov : NonOverlapping events)
    (hinj : ∀ e ∈ events, ∀ f ∈ events, e.id = f.id → e = f) :
    ∀ (pending : List String) (prev : String) (cards : CardMap),
      pending.Nodup →
      (∀ e ∈ events, ∃ ls, getCard cards e.id = some ls ∧
        (e.is_running_at t = true → e.location ∈ pending → ls ≠ [])) →
      ∃ out cards2,
        pairsLoop w fill (eventsAt events) t prev pending cards = some (out, cards2) ∧
        ∀ e ∈ events, ∃ ls, getCard cards e.id = some ls ∧
          getCard cards2 e.id =
            some (if e.is_running_at t = true ∧ e.location ∈ pending
              then ls.tail else ls) := by
  intro pending
  induction pending with
  | nil =>
    intro prev cards _ hpre
    refine ⟨[], cards, by simp [pairsLoop], ?_⟩
    intro e he
    obtain ⟨ls, hls, _⟩ := hpre e he
    refine ⟨ls, hls, ?_⟩
    rw [hls, if_neg]
    rintro ⟨_, hm⟩
    simp at hm
  | cons loc rest ih =>
    intro prev cards hnodup hpre
    rw [List.nodup_cons] at hnodup
    obtain ⟨out1, cards1, hstep, hpost1⟩ :=
      pairStep_ok events w fill t cards prev loc hdur hnov hinj
        (fun e he => by
          obtain ⟨ls, hls, hn⟩ := hpre e he
          exact ⟨ls, hls, fun hr hl => hn hr (by rw [hl]; exact List.mem_cons_self loc rest)⟩)
    have hpre2 : ∀ e ∈ events, ∃ ls, getCard cards1 e.id = some ls ∧
        (e.is_running_at t = true → e.location ∈ rest → ls ≠ []) := by
      intro e he
      obtain ⟨ls0, hls0, hv⟩ := hpost1 e he
      by_cases hc : e.is_running_at t = true ∧ e.location = loc
      · rw [if_pos hc] at hv
        refine ⟨ls0.tail, hv, fun hr hm => ?_⟩
        exact absurd (hc.2 ▸ hm) hnodup.1
      · rw [if_neg hc] at hv
        obtain ⟨ls0', hls0', hn⟩ := hpre e he
        rw [hls0] at hls0'
        injection hls0' with hv2
        subst hv2
        exact ⟨ls0, hv, fun hr hm => hn hr (List.mem_cons_of_mem loc hm)⟩
    obtain ⟨out2, cards2, hloop, hpost2⟩ := ih loc cards1 hnodup.2 hpre2
    refine ⟨out1 ++ out2, cards2, ?_, ?_⟩
    · simp only [pairsLoop]
      rw [hstep]
      simp only [Option.some_bind]
      rw [hloop]
      simp only [Option.map_some']
    · intro e he
      obtain ⟨ls0, hls0, hv1⟩ := hpost1 e he
      obtain ⟨ls1, hls1, hv2⟩ := hpost2 e he
      rw [hv1] at hls1
      injection hls1 with hv3
      subst hv3
      refine ⟨ls0, hls0, ?_⟩
      rw [hv2]
      by_cases hr : e.is_running_at t = true
      · by_cases hl : e.location = loc
        · simp [hr, hl, hnodup.1]
        · by_cases hm : e.location ∈ rest
          · simp [hr, hl, hm]
          · simp [hr, hl, hm]
      · simp [hr]

theorem rowLine_ok (events : List Event) (w : Nat) (t : Int) (ts : List Int)
    (locations : List String) (cards : CardMap)
    (hdur : ∀ e ∈ events, 0 < e.duration) (hnov : NonOverlapping events)
    (hinj : ∀ e ∈ events, ∀ f ∈ events, e.id = f.id → e = f)
    (hlocs : locations ≠ []) (hnodup : locations.Nodup)
    (hinv : CardsInv events cards (t :: ts)) :
    ∃ line cards2, rowLine w locations (eventsAt events) cards t = some (line, cards2) ∧
      CardsInv events cards2 ts := by
  obtain ⟨loc0, rest, rfl⟩ : ∃ a r, locations = a :: r := by
    cases locations with
    | nil => exact absurd rfl hlocs
    | cons a r => exact ⟨a, r, rfl⟩
  rw [List.nodup_cons] at hnodup
  simp only [rowLine]
  have hrun_ne : ∀ e ∈ events, ∃ ls, getCard cards e.id = some ls ∧
      (e.is_running_at t = true → ls ≠ []) := by
    intro e he
    obtain ⟨ls, hls, hb⟩ := hinv e he
    refine ⟨ls, hls, fun hr hnil => ?_⟩
    rw [runCount_cons, if_pos hr] at hb
    rw [hnil] at hb
    simp at hb
  obtain ⟨out0, cards1, hfc, hpost0⟩ :=
    firstCell_ok events w (if isTick t then '-' else ' ') t cards loc0 hdur hnov hinj
      (fun e he => by
        obtain ⟨ls, hls, hn⟩ := hrun_ne e he
        exact ⟨ls, hls, fun hr _ => hn hr⟩)
  rw [hfc]
  simp only [Option.some_bind]
  have hpre1 : ∀ e ∈ events, ∃ ls, getCard cards1 e.id = some ls ∧
      (e.is_running_at t = true → e.location ∈ rest → ls ≠ []) := by
    intro e he
    obtain ⟨ls0, hls0, hv⟩ := hpost0 e he
    by_cases hc : e.is_running_at t = true ∧ e.location = loc0
    · rw [if_pos hc] at hv
      refine ⟨ls0.tail, hv, fun hr hm => absurd (hc.2 ▸ hm) hnodup.1⟩
    · rw [if_neg hc] at hv
      obtain ⟨ls0', hls0', hn⟩ := hrun_ne e he
      rw [hls0] at hls0'
      injection hls0' with hv2
      subst hv2
      exact ⟨ls0, hv, fun hr _ => hn hr⟩
  obtain ⟨out1, cards2, hpl, hpost1⟩ :=
    pairsLoop_ok events w (if isTick t then '-' else ' ') t hdur hnov hinj
      rest loc0 cards1 hnodup.2 hpre1
  rw [hpl]
  simp only [Option.some_bind]
  obtain ⟨edge, hedge⟩ := Option.ne_none_iff_exists'.1
    (lastEdge_isSome (if isTick t then '-' else ' ') (eventsAt events) t
      (rest.getLastD loc0))
  rw [hedge]
  simp only [Option.map_some']
  refine ⟨_, cards2, rfl, ?_⟩
  intro e he
  obtain ⟨ls0, hls0, hbound⟩ := hinv e he
  obtain ⟨ls0', hls0', h1⟩ := hpost0 e he
  rw [hls0] at hls0'
  injection hls0' with hveq
  subst hveq
  obtain ⟨ls1, hls1, h2⟩ := hpost1 e he
  rw [h1] at hls1
  injection hls1 with hveq2
  subst hveq2
  rw [runCount_cons] at hbound
  refine ⟨_, h2, ?_⟩
  by_cases hr : e.is_running_at t = true
  · rw [if_pos hr] at hbound
    by_cases hl : e.location = loc0
    · simp [hr, hl, hnodup.1] <;> omega
    · by_cases hm : e.location ∈ rest
      · simp [hr, hl, hm] <;> omega
      · simp [hr, hl, hm] <;> omega
  · rw [if_neg hr] at hbound
    simp [hr] <;> omega

theorem rowsLoop_ok (events : List Event) (w : Nat) (locations : List String)
    (hdur : ∀ e ∈ events, 0 < e.duration) (hnov : NonOverlapping events)
    (hinj : ∀ e ∈ events, ∀ f ∈ events, e.id = f.id → e = f)
    (hlocs : locations ≠ []) (hnodup : locations.Nodup) :
    ∀ (ts : List Int) (cards : CardMap), CardsInv events cards ts →
      ∃ out, rowsLoop w locations (eventsAt events) ts cards = some out ∧
        out.length = ts.length := by
  intro ts
  induction ts with
  | nil => intro cards _; exact ⟨[], by simp [rowsLoop], rfl⟩
  | cons t ts ih =>
    intro cards hinv
    obtain ⟨line, cards2, hrow, hinv2⟩ :=
      rowLine_ok events w t ts locations cards hdur hnov hinj hlocs hnodup hinv
    obtain ⟨out, hloop, hlen⟩ := ih cards2 hinv2
    refine ⟨line :: out, ?_, by simp [hlen]⟩
    simp only [rowsLoop]
    rw [hrow]
    simp only [Option.some_bind]
    rw [hloop]
    simp only [Option.map_some']

/-! ### Claim C2, amended theorem -/
/-- C2, amended: for every non-empty event list whose events have
positive duration, pairwise distinct ids, locations present in the
snapshot's duplicate-free location list, per-location pairwise
non-overlap, and starts and durations divisible by 5 minutes, and every
column width ≥ 8, render terminates and produces a header plus one line
per 5-minute row: exactly 1 + rowCount newline-separated lines with
rowCount = (globalEnd - globalStart)/5 + 1.  (Without the 5-minute
alignment the render can crash on card-cursor exhaustion, see the
counterexample.) -/
theorem timetable_line_count (allLocs : List String) (events : List Event) (w : Nat)
    (hne : events ≠ [])
    (hdur : ∀ e ∈ events, 0 < e.duration)
    (halign : ∀ e ∈ events, (5 : Int) ∣ e.start ∧ (5 : Int) ∣ (e.duration : Int))
    (hloc : ∀ e ∈ events, e.location ∈ allLocs)
    (hids : (events.map (fun e => e.id)).Nodup)
    (hlocsnd : allLocs.Nodup)
    (hnov : NonOverlapping events)
    (hw : 8 ≤ w) :
    ∃ L, timetableLines allLocs events w = some L ∧
      L.length = 1 + (((globalEnd events - globalStart events) / 5).toNat + 1) ∧
      timetable allLocs events w = some (joinLines L) := by
  obtain ⟨e0, hmem0⟩ : ∃ e, e ∈ events := by
    cases events with
    | nil => exact absurd rfl hne
    | cons a b => exact ⟨a, List.mem_cons_self a b⟩
  have hinj : ∀ e ∈ events, ∀ f ∈ events, e.id = f.id → e = f :=
    fun e he f hf hid => List.inj_on_of_nodup_map hids he hf hid
  have hgs5 : (5 : Int) ∣ globalStart events :=
    globalStart_dvd events (fun e he => (halign e he).1) hne
  have hge5 : (5 : Int) ∣ globalEnd events :=
    globalEnd_dvd events (fun e he => by
      have h := halign e he
      rw [Event.stop]
      exact dvd_add h.1 h.2) hne
  have hgsle : ¬ (globalEnd events < globalStart events) := by
    have h1 := globalStart_le events e0 hmem0
    have h2 := le_globalEnd events e0 hmem0
    have h3 := hdur e0 hmem0
    rw [Event.stop] at h2
    omega
  have hlnodup := visibleLocations_nodup allLocs events hlocsnd
  have hlne := visibleLocations_ne_nil allLocs events e0 hmem0 (hloc e0 hmem0)
  obtain ⟨m, hbuild, hget⟩ := buildCards_ok events w hw hids
  have hinv : CardsInv events m (rowTimes (globalStart events) (globalEnd events)) := by
    intro e he
    refine ⟨cardBody e w, hget e he, ?_⟩
    exact runCount_rowTimes_le e (globalStart events) (globalEnd events) w hgs5
      (halign e he).1 (halign e he).2 (hdur e he) (globalStart_le events e he)
      (le_globalEnd events e he)
  obtain ⟨rows, hloop, hlen⟩ := rowsLoop_ok events w (visibleLocations allLocs events)
    hdur hnov hinj hlne hlnodup (rowTimes (globalStart events) (globalEnd events)) m hinv
  have hTL : timetableLines allLocs events w =
      some (headerLine w (visibleLocations allLocs events) :: rows) := by
    simp only [timetableLines]
    rw [hbuild]
    simp only [Option.some_bind]
    rw [hloop]
    simp only [Option.map_some']
  refine ⟨_, hTL, ?_, ?_⟩
  · simp only [List.length_cons]
    rw [hlen, rowTimes_length _ _ hgs5 hgsle]
    omega
  · have hemp : events.isEmpty = false := by
      cases events with
      | nil => exact absurd rfl hne
      | cons a b => rfl
    rw [timetable, if_neg (by rw [hemp]; exact Bool.false_ne_true), hTL]
    simp only [Option.map_some']

/-- Witness for timetable_line_count at the concrete two-location
scenario. -/
theorem timetable_line_count_witness :
    (([evA, evB] : List Event) ≠ [] ∧
        (∀ e ∈ [evA, evB], 0 < e.duration) ∧
        (∀ e ∈ [evA, evB], (5 : Int) ∣ e.start ∧ (5 : Int) ∣ (e.duration : Int)) ∧
        (∀ e ∈ [evA, evB], e.location ∈ ["L1", "L2"]) ∧
        (([evA, evB].map (fun e => e.id)).Nodup) ∧
        (["L1", "L2"] : List String).Nodup ∧
        NonOverlapping [evA, evB] ∧ 8 ≤ 20) ∧
      (∃ L, timetableLines ["L1", "L2"] [evA, evB] 20 = some L ∧
        L.length = 1 + (((globalEnd [evA, evB] - globalStart [evA, evB]) / 5).toNat + 1) ∧
        timetable ["L1", "L2"] [evA, evB] 20 = some (joinLines L)) :=
  ⟨⟨by decide, by decide, by decide, by decide, by decide, by decide, by decide, by decide⟩,
    timetable_line_count ["L1", "L2"] [evA, evB] 20 (by decide) (by decide) (by decide)
      (by decide) (by decide) (by decide) (by decide) (by decide)⟩

end Gulasch

